import Mathlib

/-!
Verification development for the Damascus pattern playground.

The pattern synthesizer (`generatePattern`), the instruction formatter
(`instructionsFromOps`), the operation-bubble preview line and the share-link
`encode`/`decode` pair are embedded over exact rationals.  JavaScript numbers
are modelled as `ℚ`; the two transcendental calls (`Math.sin`, `Math.sqrt`)
are parameters of the embedding (a `JsMath` record), constrained only by the
identity `sin 0 = 0`, which holds exactly in IEEE arithmetic.  `Math.PI` is a
concrete double constant and is embedded as its exact rational value.
The JavaScript remainder `a % b` truncates toward zero and is embedded as
`jsMod`.
-/

namespace Damascus

/-- Truncation toward zero, the rounding used by the JavaScript `%` operator. -/
def truncQ (q : ℚ) : ℤ := if 0 ≤ q then ⌊q⌋ else -⌊-q⌋

/-- JavaScript `a % b` (fmod): `a - b * trunc (a / b)`. -/
def jsMod (a b : ℚ) : ℚ := a - b * truncQ (a / b)

/-- The final wrap of the synthesizer: `vv = ((vv % 1) + 1) % 1`. -/
def wrap01 (q : ℚ) : ℚ := jsMod (jsMod q 1 + 1) 1

/-- The IEEE-754 double `Math.PI`, exactly: `884279719003555 / 2^48`. -/
def jsPI : ℚ := 884279719003555 / 281474976710656

/-- The transcendental operations used by the synthesizer.  `Math.sin` and
`Math.sqrt` return doubles with no exact rational description, so the
embedding abstracts them as an arbitrary pair of functions; the only law the
code relies on (and that IEEE guarantees exactly) is `Math.sin(0) = 0`. -/
structure JsMath where
  sin : ℚ → ℚ
  sqrt : ℚ → ℚ
  sin_zero : sin 0 = 0

/-- A concrete instance of the `JsMath` record, used to evaluate the
embedding at specific inputs. -/
def trivialJs : JsMath := ⟨fun _ => 0, fun _ => 0, rfl⟩

/-- The closed `MaterialType` enumeration. -/
inductive Material
  | m1084
  | m15N20
  | m1095
  | m80CrV2
  | m52100
  | m5160
  | pureNickel
  | wroughtIron
deriving DecidableEq

/-- Etch brightness from `MATERIAL_CATALOG` (0.15, 0.85, 0.12, 0.18, 0.2,
0.22, 0.95, 0.35). -/
def etch : Material → ℚ
  | .m1084 => 3/20
  | .m15N20 => 17/20
  | .m1095 => 3/25
  | .m80CrV2 => 9/50
  | .m52100 => 1/5
  | .m5160 => 11/50
  | .pureNickel => 19/20
  | .wroughtIron => 7/20

/-- Display name from `MATERIAL_CATALOG`. -/
def matName : Material → String
  | .m1084 => "1084"
  | .m15N20 => "15N20"
  | .m1095 => "1095"
  | .m80CrV2 => "80CrV2"
  | .m52100 => "52100"
  | .m5160 => "5160"
  | .pureNickel => "Pure Nickel"
  | .wroughtIron => "Wrought Iron"

/-- The material identifier string (the `MaterialType` union member). -/
def idString : Material → String
  | .m1084 => "1084"
  | .m15N20 => "15N20"
  | .m1095 => "1095"
  | .m80CrV2 => "80CrV2"
  | .m52100 => "52100"
  | .m5160 => "5160"
  | .pureNickel => "PureNickel"
  | .wroughtIron => "WroughtIron"

/-- The `Operation` tagged union. -/
inductive Operation
  | addSheets (material : Material) (count : ℚ)
  | twist (turns : ℚ)
  | ladder (spacing : ℚ) (depth : ℚ)
  | raindrops (radius : ℚ) (spacing : ℚ)
  | wfolds (folds : ℚ)
  | fold (times : ℚ)
  | stretch (factor : ℚ)
deriving DecidableEq

/-- One step of the per-pixel operation loop of `generatePattern`, acting on
the working coordinates `(uu, vv)`.  `repeats` is `layers.length`.
`addSheets` matches no branch of the loop and leaves the pair unchanged. -/
def applyOp (m : JsMath) (repeats : ℕ) (p : ℚ × ℚ) : Operation → ℚ × ℚ
  | .twist turns =>
      (p.1, p.2 + m.sin (p.1 * jsPI * 2 * turns) * (1/2) / max 1 (repeats : ℚ))
  | .ladder spacing depth =>
      let t := jsMod (p.1 / max (1/10000) spacing) 1
      let tri := 1 - |1/2 - t| * 2
      (p.1, p.2 - tri * (1/4) * depth)
  | .raindrops radius spacing =>
      let cx : ℚ := (⌊p.1 / max (1/10000) spacing⌋ : ℤ)
      let cy : ℚ := (⌊p.2 / max (1/10000) spacing⌋ : ℤ)
      let dx := p.1 - cx * spacing - spacing * (1/2)
      let dy := p.2 - cy * spacing - spacing * (1/2)
      let d := m.sqrt (dx * dx + dy * dy)
      let influence := max 0 (1 - d / max (1/10000) radius)
      (p.1, p.2 - influence * (3/20))
  | .wfolds folds =>
      let saw := jsMod (p.1 * folds) 1 - 1/2
      (p.1, |p.2 + saw * (1/2)|)
  | .fold times => (p.1, p.2 * 2 ^ (⌊times⌋.toNat))
  | .stretch factor => (p.1 * factor, p.2)
  | .addSheets _ _ => p

/-- The working `vv` after the whole operation loop, before the final wrap,
for the pixel `(x, y)`: start at `(x/width, y/height)` and fold the loop. -/
def pipeV (m : JsMath) (layers : List Material) (ops : List Operation)
    (w h x y : ℕ) : ℚ :=
  (ops.foldl (applyOp m layers.length) ((x : ℚ) / (w : ℚ), (y : ℚ) / (h : ℚ))).2

/-- The wrapped `vv ∈ [0,1)` used for the layer lookup. -/
def finalV (m : JsMath) (layers : List Material) (ops : List Operation)
    (w h x y : ℕ) : ℚ :=
  wrap01 (pipeV m layers ops w h x y)

/-- `idx = Math.floor(vv * repeats)` for the pixel `(x, y)`. -/
def layerIndex (m : JsMath) (layers : List Material) (ops : List Operation)
    (w h x y : ℕ) : ℕ :=
  (⌊finalV m layers ops w h x y * (layers.length : ℚ)⌋).toNat

/-- An RGBA pixel. -/
structure RGBA where
  r : ℕ
  g : ℕ
  b : ℕ
  a : ℕ
deriving DecidableEq

/-- The `Uint8ClampedArray` store conversion: clamp to `[0,255]`, round with
ties to even. -/
def u8Clamp (q : ℚ) : ℕ :=
  let c := min 255 (max 0 q)
  let f := ⌊c⌋
  let r := c - f
  (if r < 1/2 then f else if 1/2 < r then f + 1
   else if f % 2 = 0 then f else f + 1).toNat

/-- The fixed `#111` background used for an empty stack. -/
def bg : RGBA := ⟨17, 17, 17, 255⟩

/-- The pixel written by the per-pixel loop: the selected layer's etch value
clamped into `[0,1]`, scaled to `0..255`, stored as opaque gray. -/
def pixel (m : JsMath) (layers : List Material) (ops : List Operation)
    (w h x y : ℕ) : RGBA :=
  let s := max 0 (min 1 (etch (layers.getD (layerIndex m layers ops w h x y) .m1084))) * 255
  ⟨u8Clamp s, u8Clamp s, u8Clamp s, 255⟩

/-- The synthesized raster. -/
structure Image where
  width : ℕ
  height : ℕ
  data : List (List RGBA)
deriving DecidableEq

/-- `generatePattern(layers, ops, width, height)`: for an empty stack, fill
with the `#111` background; otherwise run the per-pixel pipeline. -/
def generatePattern (m : JsMath) (layers : List Material)
    (ops : List Operation) (w h : ℕ) : Image :=
  if layers.isEmpty then
    ⟨w, h, List.replicate h (List.replicate w bg)⟩
  else
    ⟨w, h, (List.range h).map fun y => (List.range w).map fun x =>
      pixel m layers ops w h x y⟩

/-! ### Arithmetic of the truncating remainder and the final wrap -/

theorem truncQ_of_nonneg {q : ℚ} (h : 0 ≤ q) : truncQ q = ⌊q⌋ := if_pos h

theorem truncQ_of_neg {q : ℚ} (h : ¬ 0 ≤ q) : truncQ q = -⌊-q⌋ := if_neg h

theorem jsMod_one (a : ℚ) : jsMod a 1 = a - truncQ a := by
  simp [jsMod]

theorem jsMod_one_of_nonneg {a : ℚ} (h : 0 ≤ a) :
    jsMod a 1 = Int.fract a := by
  rw [jsMod_one, truncQ_of_nonneg h, Int.fract]

theorem jsMod_one_neg_lt (a : ℚ) : -1 < jsMod a 1 := by
  rw [jsMod_one, truncQ]
  split
  · have := Int.fract_nonneg (α := ℚ) a
    rw [Int.fract] at this
    linarith
  · have := Int.fract_lt_one (α := ℚ) (-a)
    rw [Int.fract] at this
    push_cast
    linarith

theorem jsMod_one_lt_one (a : ℚ) : jsMod a 1 < 1 := by
  rw [jsMod_one, truncQ]
  split
  · have := Int.fract_lt_one (α := ℚ) a
    rw [Int.fract] at this
    linarith
  · have := Int.fract_nonneg (α := ℚ) (-a)
    rw [Int.fract] at this
    push_cast
    linarith

theorem wrap01_nonneg (q : ℚ) : 0 ≤ wrap01 q := by
  have h1 : (0 : ℚ) ≤ jsMod q 1 + 1 := by linarith [jsMod_one_neg_lt q]
  rw [wrap01, jsMod_one_of_nonneg h1]
  exact Int.fract_nonneg _

theorem wrap01_lt_one (q : ℚ) : wrap01 q < 1 := by
  have h1 : (0 : ℚ) ≤ jsMod q 1 + 1 := by linarith [jsMod_one_neg_lt q]
  rw [wrap01, jsMod_one_of_nonneg h1]
  exact Int.fract_lt_one _

theorem jsMod_one_eq_self {q : ℚ} (h0 : 0 ≤ q) (h1 : q < 1) :
    jsMod q 1 = q := by
  rw [jsMod_one_of_nonneg h0, Int.fract_eq_self.2 ⟨h0, h1⟩]

theorem wrap01_eq_self {q : ℚ} (h0 : 0 ≤ q) (h1 : q < 1) :
    wrap01 q = q := by
  have h2 : (0 : ℚ) ≤ q + 1 := by linarith
  rw [wrap01, jsMod_one_eq_self h0 h1, jsMod_one_of_nonneg h2]
  have h3 : Int.fract (q + 1) = Int.fract q := by
    simpa using Int.fract_add_int q 1
  rw [h3, Int.fract_eq_self.2 ⟨h0, h1⟩]

theorem floor_mul_len_lt {v : ℚ} {len : ℕ} (h0 : 0 ≤ v) (h1 : v < 1)
    (hl : 0 < len) : (⌊v * (len : ℚ)⌋).toNat < len := by
  have hlen : (0 : ℚ) < (len : ℚ) := by exact_mod_cast hl
  have hlt : v * (len : ℚ) < (len : ℚ) := by
    calc v * (len : ℚ) < 1 * (len : ℚ) := by
          exact mul_lt_mul_of_pos_right h1 hlen
    _ = (len : ℚ) := one_mul _
  have : ⌊v * (len : ℚ)⌋ < (len : ℤ) := by
    rw [Int.floor_lt]
    exact_mod_cast hlt
  omega

theorem div_nonneg_lt_one {y h : ℕ} (hh : 0 < h) (hy : y < h) :
    0 ≤ (y : ℚ) / (h : ℚ) ∧ (y : ℚ) / (h : ℚ) < 1 := by
  constructor
  · positivity
  · rw [div_lt_one (by exact_mod_cast hh)]
    exact_mod_cast hy

/-! ### Claims about the synthesizer raster -/

/-- Claim C1: with a non-empty stack and an empty operation list, every
output pixel `(x, y)` selects the material at index
`floor(((y/height) mod 1) * stackLength)`, and the pixel does not depend on
`x` (plain horizontal banding in stack order). -/
theorem C1_empty_ops_banding (m : JsMath) (layers : List Material)
    (w h x y : ℕ) (hl : layers ≠ []) (hw : 0 < w) (hh : 0 < h)
    (hx : x < w) (hy : y < h) :
    layerIndex m layers [] w h x y
      = (⌊jsMod ((y : ℚ) / (h : ℚ)) 1 * (layers.length : ℚ)⌋).toNat
    ∧ pixel m layers [] w h x y = pixel m layers [] w h 0 y := by
  obtain ⟨h0, h1⟩ := div_nonneg_lt_one hh hy
  have hidx : ∀ x' : ℕ, layerIndex m layers [] w h x' y
      = (⌊jsMod ((y : ℚ) / (h : ℚ)) 1 * (layers.length : ℚ)⌋).toNat := by
    intro x'
    unfold layerIndex finalV pipeV
    rw [List.foldl_nil, wrap01_eq_self h0 h1, jsMod_one_eq_self h0 h1]
  refine ⟨hidx x, ?_⟩
  unfold pixel
  rw [hidx x, hidx 0]

/-- Witness for C1 at a concrete pixel: stack `[1084, 15N20]`, 2×2 raster,
pixel `(1, 1)`. -/
theorem C1_empty_ops_banding_witness :
    ([Material.m1084, Material.m15N20] ≠ ([] : List Material)
      ∧ 0 < 2 ∧ 0 < 2 ∧ 1 < 2 ∧ 1 < 2)
    ∧ (layerIndex trivialJs [Material.m1084, Material.m15N20] [] 2 2 1 1
        = (⌊jsMod ((1 : ℚ) / (2 : ℚ)) 1 * ((2 : ℕ) : ℚ)⌋).toNat
      ∧ pixel trivialJs [Material.m1084, Material.m15N20] [] 2 2 1 1
        = pixel trivialJs [Material.m1084, Material.m15N20] [] 2 2 0 1) :=
  ⟨⟨by decide, by decide, by decide, by decide, by decide⟩, by
    have := C1_empty_ops_banding trivialJs [Material.m1084, Material.m15N20]
      2 2 1 1 (by decide) (by decide) (by decide) (by decide) (by decide)
    simpa using this⟩

/-- Claim C2: for every non-empty stack, every operation list and every
pixel, the wrapped coordinate lies in `[0,1)` and the selected index is
strictly below the stack length, so the layer lookup is in range. -/
theorem C2_wrap_safety (m : JsMath) (layers : List Material)
    (ops : List Operation) (w h x y : ℕ) (hl : layers ≠ []) :
    0 ≤ finalV m layers ops w h x y
    ∧ finalV m layers ops w h x y < 1
    ∧ layerIndex m layers ops w h x y < layers.length := by
  have hlen : 0 < layers.length := List.length_pos.2 hl
  refine ⟨wrap01_nonneg _, wrap01_lt_one _, ?_⟩
  exact floor_mul_len_lt (wrap01_nonneg _) (wrap01_lt_one _) hlen

/-- Witness for C2: a twist and a fold over a two-layer stack at pixel
`(3, 5)` of an 8×8 raster. -/
theorem C2_wrap_safety_witness :
    ([Material.m1084, Material.m15N20] ≠ ([] : List Material))
    ∧ (0 ≤ finalV trivialJs [Material.m1084, Material.m15N20]
          [Operation.twist 1, Operation.fold 2] 8 8 3 5
      ∧ finalV trivialJs [Material.m1084, Material.m15N20]
          [Operation.twist 1, Operation.fold 2] 8 8 3 5 < 1
      ∧ layerIndex trivialJs [Material.m1084, Material.m15N20]
          [Operation.twist 1, Operation.fold 2] 8 8 3 5
          < [Material.m1084, Material.m15N20].length) :=
  ⟨by decide, C2_wrap_safety trivialJs _ _ 8 8 3 5 (by decide)⟩

/-- Claim C3: with an empty stack the synthesizer returns an image of the
requested width and height whose rows and pixels are all the fixed `#111`
background, for any operation list. -/
theorem C3_empty_stack_background (m : JsMath) (ops : List Operation)
    (w h : ℕ) (hw : 0 < w) (hh : 0 < h) :
    (generatePattern m [] ops w h).width = w
    ∧ (generatePattern m [] ops w h).height = h
    ∧ (generatePattern m [] ops w h).data.length = h
    ∧ (∀ row ∈ (generatePattern m [] ops w h).data,
        row.length = w ∧ ∀ px ∈ row, px = bg) := by
  refine ⟨rfl, rfl, by simp [generatePattern], ?_⟩
  intro row hrow
  rw [generatePattern] at hrow
  simp only [List.isEmpty_nil, if_true] at hrow
  have h1 : row = List.replicate w bg := List.eq_of_mem_replicate hrow
  subst h1
  exact ⟨List.length_replicate _ _, fun px hpx => List.eq_of_mem_replicate hpx⟩

/-- Witness for C3 at the spec scenario: `stack=[]`, `ops=[]`, 16×8. -/
theorem C3_empty_stack_background_witness :
    (0 < 16 ∧ 0 < 8)
    ∧ ((generatePattern trivialJs [] [] 16 8).width = 16
      ∧ (generatePattern trivialJs [] [] 16 8).height = 8
      ∧ (generatePattern trivialJs [] [] 16 8).data.length = 8
      ∧ (∀ row ∈ (generatePattern trivialJs [] [] 16 8).data,
          row.length = 16 ∧ ∀ px ∈ row, px = bg)) :=
  ⟨⟨by decide, by decide⟩,
    C3_empty_stack_background trivialJs [] 16 8 (by decide) (by decide)⟩

/-! ### C4: the ladder transform -/

/-- Modelled from the spec's words for comparison with `applyOp`: the claimed
ladder transform `t = (uu / spacing) mod 1`, `tri = 1 - |0.5 - t| * 2`,
`vv -= tri * 0.25 * depth`, with the raw `spacing` in the division. -/
def ladderSpec (spacing depth : ℚ) (p : ℚ × ℚ) : ℚ × ℚ :=
  (p.1, p.2 - (1 - |1/2 - jsMod (p.1 / spacing) 1| * 2) * (1/4) * depth)

/-- Counterexample to C4 as stated: for `spacing = 1/20000 > 0` (below the
code's `Math.max(0.0001, spacing)` clamp), `depth = 1 ≥ 0` and
`(uu, vv) = (1/40000, 0)`, the code divides by the clamp value `1/10000`
rather than by `spacing`, producing `vv = -1/8` instead of the claimed
`-1/4`. -/
theorem C4_ladder_counterexample :
    (0 < (1/20000 : ℚ) ∧ 0 ≤ (1 : ℚ))
    ∧ applyOp trivialJs 1 (1/40000, 0) (Operation.ladder (1/20000) 1)
        ≠ ladderSpec (1/20000) 1 (1/40000, 0)
    ∧ applyOp trivialJs 1 (1/40000, 0) (Operation.ladder (1/20000) 1)
        = (1/40000, -(1/8))
    ∧ ladderSpec (1/20000) 1 (1/40000, 0) = (1/40000, -(1/4)) := by
  have hcode : applyOp trivialJs 1 ((1:ℚ)/40000, (0:ℚ))
      (Operation.ladder (1/20000) 1) = (1/40000, -(1/8)) := by
    simp only [applyOp]
    rw [max_eq_left (by norm_num : (1/20000 : ℚ) ≤ 1/10000)]
    rw [show ((1:ℚ)/40000) / (1/10000) = 1/4 by norm_num]
    rw [jsMod_one_eq_self (by norm_num) (by norm_num)]
    rw [show |(1:ℚ)/2 - 1/4| = 1/4 by rw [abs_of_nonneg] <;> norm_num]
    norm_num
  have hspec : ladderSpec (1/20000) 1 ((1:ℚ)/40000, (0:ℚ))
      = (1/40000, -(1/4)) := by
    unfold ladderSpec
    rw [show ((1:ℚ)/40000, (0:ℚ)).1 / (1/20000) = 1/2 by norm_num]
    rw [jsMod_one_eq_self (by norm_num) (by norm_num)]
    rw [show |(1:ℚ)/2 - 1/2| = 0 by rw [show (1:ℚ)/2 - 1/2 = 0 by norm_num, abs_zero]]
    norm_num
  refine ⟨⟨by norm_num, by norm_num⟩, ?_, hcode, hspec⟩
  rw [hcode, hspec]
  intro hcontra
  have := congrArg Prod.snd hcontra
  norm_num at this

/-- Claim C4, amended: the clamp only matters below `0.0001`, so for every
ladder operation with `spacing ≥ 0.0001` and `depth ≥ 0` the transform is
exactly the claimed `t = (uu / spacing) mod 1`, `tri = 1 - |0.5 - t| * 2`,
`vv -= tri * 0.25 * depth`, with `uu` unchanged; below `0.0001` the code
divides by the clamped value `0.0001` instead. -/
theorem C4_ladder_amended (m : JsMath) (r : ℕ) (uu vv spacing depth : ℚ)
    (hs : 1/10000 ≤ spacing) (hd : 0 ≤ depth) :
    applyOp m r (uu, vv) (Operation.ladder spacing depth)
      = (uu, vv - (1 - |1/2 - jsMod (uu / spacing) 1| * 2) * (1/4) * depth) := by
  simp only [applyOp, max_eq_right hs]

/-- Witness for the amended C4 at `spacing = 1/10`, `depth = 1`,
`(uu, vv) = (1/4, 0)`. -/
theorem C4_ladder_amended_witness :
    ((1/10000 : ℚ) ≤ 1/10 ∧ (0 : ℚ) ≤ 1)
    ∧ applyOp trivialJs 1 ((1:ℚ)/4, (0:ℚ)) (Operation.ladder (1/10) 1)
        = ((1:ℚ)/4, (0:ℚ) - (1 - |1/2 - jsMod (((1:ℚ)/4) / (1/10)) 1| * 2) * (1/4) * 1) :=
  ⟨⟨by norm_num, by norm_num⟩,
    C4_ladder_amended trivialJs 1 (1/4) 0 (1/10) 1 (by norm_num) (by norm_num)⟩

/-! ### C5: the 10-layer fold(2) banding scenario -/

/-- The scenario stack `[1084, 15N20] × 5`. -/
def stack10 : List Material :=
  [.m1084, .m15N20, .m1084, .m15N20, .m1084, .m15N20, .m1084, .m15N20,
   .m1084, .m15N20]

/-- Number of maximal runs of equal pixels in a list (bands along a line). -/
def countBands : List RGBA → ℕ
  | [] => 0
  | [_] => 1
  | a :: b :: t => (if a = b then 0 else 1) + countBands (b :: t)

/-- The column of raster pixels at a fixed `x` for the scenario
`stack = stack10`, `ops = [Fold(times=2)]`, `width = 64`, `height = 32`. -/
def colorColumn (m : JsMath) (x : ℕ) : List RGBA :=
  (List.range 32).map fun y => pixel m stack10 [Operation.fold 2] 64 32 x y

theorem wrap01_eq_fract {q : ℚ} (h : 0 ≤ q) : wrap01 q = Int.fract q := by
  have h1 : (0 : ℚ) ≤ Int.fract q + 1 := by
    linarith [Int.fract_nonneg (α := ℚ) q]
  rw [wrap01, jsMod_one_of_nonneg h, jsMod_one_of_nonneg h1]
  calc Int.fract (Int.fract q + 1)
      = Int.fract (Int.fract q + ((1 : ℤ) : ℚ)) := by norm_num
    _ = Int.fract (Int.fract q) := Int.fract_add_int _ 1
    _ = Int.fract q := Int.fract_fract q

theorem fract_natCast_div (y d : ℕ) (hd : 0 < d) :
    Int.fract ((y : ℚ) / (d : ℚ)) = ((y % d : ℕ) : ℚ) / (d : ℚ) := by
  have hd0 : (d : ℚ) ≠ 0 := Nat.cast_ne_zero.2 hd.ne'
  conv_lhs =>
    rw [show (y : ℚ) = ((d * (y / d) + y % d : ℕ) : ℚ) by rw [Nat.div_add_mod]]
  push_cast
  rw [add_div, mul_div_cancel_left₀ _ hd0]
  rw [show ((y / d : ℕ) : ℚ) = (((y / d : ℕ) : ℤ) : ℚ) by norm_cast]
  rw [Int.fract_int_add]
  refine Int.fract_eq_self.2 ⟨by positivity, ?_⟩
  rw [div_lt_one (by exact_mod_cast hd)]
  exact_mod_cast Nat.mod_lt y hd

theorem toNat_floor_natCast_div_natCast (a b : ℕ) :
    (⌊(a : ℚ) / (b : ℚ)⌋).toNat = a / b := by
  rw [Int.floor_toNat, Nat.floor_div_nat, Nat.floor_natCast]

/-- The scenario pipeline before the wrap: `Fold(times=2)` multiplies the
stacking coordinate by `2² = 4`. -/
theorem scenario_pipeV (m : JsMath) (x y : ℕ) :
    pipeV m stack10 [Operation.fold 2] 64 32 x y = (y : ℚ) / 32 * 4 := by
  unfold pipeV
  rw [List.foldl_cons, List.foldl_nil]
  simp only [applyOp]
  rw [show (⌊(2:ℚ)⌋).toNat = 2 by rw [show ⌊(2:ℚ)⌋ = 2 by norm_num]; rfl]
  norm_num

theorem scenario_layerIndex (m : JsMath) (x y : ℕ) :
    layerIndex m stack10 [Operation.fold 2] 64 32 x y = y % 8 * 10 / 8 := by
  unfold layerIndex finalV
  rw [scenario_pipeV]
  rw [show (y : ℚ) / 32 * 4 = (y : ℚ) / ((8 : ℕ) : ℚ) by push_cast; ring]
  rw [wrap01_eq_fract (by positivity), fract_natCast_div y 8 (by norm_num)]
  rw [show ((y % 8 : ℕ) : ℚ) / ((8 : ℕ) : ℚ) * ((stack10.length : ℕ) : ℚ)
      = ((y % 8 * 10 : ℕ) : ℚ) / ((8 : ℕ) : ℚ) by
    rw [show stack10.length = 10 from rfl]; push_cast; ring]
  exact toNat_floor_natCast_div_natCast _ _

/-- The gray level stored for `1084` (etch 0.15): `0.15 · 255 = 38.25`,
rounded to 38. -/
theorem u8Clamp_eval_lo {q : ℚ} {f : ℤ} (hf : ⌊min 255 (max 0 q)⌋ = f)
    (hlt : min 255 (max 0 q) - (f : ℚ) < 1/2) : u8Clamp q = f.toNat := by
  unfold u8Clamp
  dsimp only
  rw [hf, if_pos hlt]

theorem u8Clamp_eval_hi {q : ℚ} {f : ℤ} (hf : ⌊min 255 (max 0 q)⌋ = f)
    (h1 : ¬ (min 255 (max 0 q) - (f : ℚ) < 1/2))
    (h2 : 1/2 < min 255 (max 0 q) - (f : ℚ)) : u8Clamp q = (f + 1).toNat := by
  unfold u8Clamp
  dsimp only
  rw [hf, if_neg h1, if_pos h2]

theorem u8_dark : u8Clamp (max 0 (min 1 (etch Material.m1084)) * 255) = 38 := by
  have hq : max (0:ℚ) (min 1 (etch Material.m1084)) * 255 = 153/4 := by
    rw [show etch Material.m1084 = 3/20 from rfl,
      min_eq_right (by norm_num : (3/20 : ℚ) ≤ 1),
      max_eq_right (by norm_num : (0 : ℚ) ≤ 3/20)]
    norm_num
  rw [hq]
  have hm : min (255:ℚ) (max 0 (153/4)) = 153/4 := by
    rw [max_eq_right (by norm_num : (0:ℚ) ≤ 153/4),
      min_eq_right (by norm_num : (153/4 : ℚ) ≤ 255)]
  have := u8Clamp_eval_lo (q := 153/4) (f := 38)
    (by rw [hm]; norm_num) (by rw [hm]; norm_num)
  simpa using this

theorem u8_light : u8Clamp (max 0 (min 1 (etch Material.m15N20)) * 255) = 217 := by
  have hq : max (0:ℚ) (min 1 (etch Material.m15N20)) * 255 = 867/4 := by
    rw [show etch Material.m15N20 = 17/20 from rfl,
      min_eq_right (by norm_num : (17/20 : ℚ) ≤ 1),
      max_eq_right (by norm_num : (0 : ℚ) ≤ 17/20)]
    norm_num
  rw [hq]
  have hm : min (255:ℚ) (max 0 (867/4)) = 867/4 := by
    rw [max_eq_right (by norm_num : (0:ℚ) ≤ 867/4),
      min_eq_right (by norm_num : (867/4 : ℚ) ≤ 255)]
  have := u8Clamp_eval_hi (q := 867/4) (f := 216)
    (by rw [hm]; norm_num) (by rw [hm]; norm_num) (by rw [hm]; norm_num)
  simpa using this

/-- The dark and light pixels of the scenario, and the pixel of the scenario
column as a function of `y mod 8` alone. -/
def darkPx : RGBA := ⟨38, 38, 38, 255⟩

def lightPx : RGBA := ⟨217, 217, 217, 255⟩

def colOf (r : ℕ) : RGBA := if r * 10 / 8 % 2 = 0 then darkPx else lightPx

theorem scenario_pixel (m : JsMath) (x y : ℕ) :
    pixel m stack10 [Operation.fold 2] 64 32 x y = colOf (y % 8) := by
  unfold pixel
  rw [scenario_layerIndex]
  have hr : y % 8 < 8 := Nat.mod_lt _ (by norm_num)
  set r := y % 8 with hrd
  clear_value r
  interval_cases r <;>
    simp [stack10, colOf, u8_dark, u8_light, darkPx, lightPx]

theorem scenario_column (m : JsMath) (x : ℕ) :
    colorColumn m x = (List.range 32).map fun y => colOf (y % 8) := by
  unfold colorColumn
  rw [funext fun y => scenario_pixel m x y]

/-- Counterexample to C5 as stated: at `x = 0` the vertical line through the
synthesized raster has 25 maximal bands, not 40 (a 32-pixel column cannot
even hold 40 bands). -/
theorem C5_fold_scenario_counterexample :
    countBands (colorColumn trivialJs 0) ≠ 40 := by
  rw [scenario_column]
  decide

/-- Claim C5, amended: in the scenario the fold does quadruple the stacking
frequency (the pre-wrap coordinate is `4·y/32`, four traversals of the
10-layer stack — 40 nominal band crossings), but at height 32 adjacent
crossings alias, and sampling the raster along a vertical line at any fixed
`x` yields exactly 25 maximal bands, not 40. -/
theorem C5_fold_scenario_amended (m : JsMath) (x : ℕ) (hx : x < 64) :
    (∀ y : ℕ, finalV m stack10 [Operation.fold 2] 64 32 x y
        = wrap01 ((y : ℚ) / 32 * 4))
    ∧ countBands (colorColumn m x) = 25 := by
  constructor
  · intro y
    unfold finalV
    rw [scenario_pipeV]
  · rw [scenario_column]
    decide

/-- Witness for the amended C5 at `x = 0`. -/
theorem C5_fold_scenario_amended_witness :
    0 < 64
    ∧ ((∀ y : ℕ, finalV trivialJs stack10 [Operation.fold 2] 64 32 0 y
          = wrap01 ((y : ℚ) / 32 * 4))
      ∧ countBands (colorColumn trivialJs 0) = 25) :=
  ⟨by decide, C5_fold_scenario_amended trivialJs 0 (by decide)⟩

/-! ### C8: AddSheets does not affect the raster -/

/-- Whether an operation is an `addSheets` record. -/
def Operation.isAddSheets : Operation → Bool
  | .addSheets _ _ => true
  | _ => false

/-- The operation list with every `addSheets` entry removed. -/
def removeAddSheets (ops : List Operation) : List Operation :=
  ops.filter fun op => ! op.isAddSheets

theorem foldl_removeAddSheets (m : JsMath) (r : ℕ) (ops : List Operation) :
    ∀ p, (removeAddSheets ops).foldl (applyOp m r) p
      = ops.foldl (applyOp m r) p := by
  induction ops with
  | nil => intro p; rfl
  | cons op t ih =>
    intro p
    cases op <;>
      simp only [removeAddSheets, List.filter_cons, Operation.isAddSheets,
        Bool.not_true, Bool.not_false, if_true, if_false, List.foldl_cons,
        reduceIte] <;>
      exact ih _

/-- Pointwise-equal pixel functions give byte-identical rasters. -/
theorem generatePattern_congr_pixel (m m' : JsMath) (layers : List Material)
    (ops ops' : List Operation) (w h : ℕ)
    (hpix : ∀ x y : ℕ, pixel m layers ops w h x y
      = pixel m' layers ops' w h x y) :
    generatePattern m layers ops w h = generatePattern m' layers ops' w h := by
  unfold generatePattern
  have hfun : (fun y => (List.range w).map fun x => pixel m layers ops w h x y)
      = fun y => (List.range w).map fun x => pixel m' layers ops' w h x y := by
    funext y
    have h2 : (fun x => pixel m layers ops w h x y)
        = fun x => pixel m' layers ops' w h x y := funext fun x => hpix x y
    rw [h2]
  rw [hfun]

/-- Claim C8: the synthesized raster is unchanged by removing all
`addSheets` entries from the operation list, for every stack, operation
list, width and height. -/
theorem C8_addSheets_raster_noop (m : JsMath) (layers : List Material)
    (ops : List Operation) (w h : ℕ) :
    generatePattern m layers ops w h
      = generatePattern m layers (removeAddSheets ops) w h := by
  apply generatePattern_congr_pixel
  intro x y
  unfold pixel layerIndex finalV pipeV
  rw [foldl_removeAddSheets]

/-! ### C9: only Stretch modifies the length coordinate -/

/-- The factor by which an operation scales `uu`: the stretch factor for a
`stretch`, `1` for every other operation. -/
def stretchFactor : Operation → ℚ
  | .stretch f => f
  | _ => 1

theorem foldl_fst_stretch (m : JsMath) (r : ℕ) (ops : List Operation) :
    ∀ p : ℚ × ℚ, (ops.foldl (applyOp m r) p).1
      = p.1 * (ops.map stretchFactor).prod := by
  induction ops with
  | nil => intro p; simp
  | cons op t ih =>
    intro p
    rw [List.foldl_cons, ih, List.map_cons, List.prod_cons]
    cases op <;> simp only [applyOp, stretchFactor] <;> ring

/-- Claim C9: after any prefix of the operation list, the working length
coordinate `uu` equals `x/width` times the product of the factors of the
`stretch` operations in the prefix (every other operation leaves `uu`
unchanged). -/
theorem C9_only_stretch_moves_uu (m : JsMath) (layers : List Material)
    (ops : List Operation) (w h x y n : ℕ) :
    ((ops.take n).foldl (applyOp m layers.length)
        ((x : ℚ) / (w : ℚ), (y : ℚ) / (h : ℚ))).1
      = (x : ℚ) / (w : ℚ) * ((ops.take n).map stretchFactor).prod :=
  foldl_fst_stretch m layers.length (ops.take n) _

/-! ### C10: identity-parameter operations are raster no-ops -/

theorem applyOp_twist_zero (m : JsMath) (r : ℕ) (p : ℚ × ℚ) :
    applyOp m r p (Operation.twist 0) = p := by
  simp [applyOp, m.sin_zero]

theorem applyOp_fold_zero (m : JsMath) (r : ℕ) (p : ℚ × ℚ) :
    applyOp m r p (Operation.fold 0) = p := by
  simp [applyOp]

theorem applyOp_stretch_one (m : JsMath) (r : ℕ) (p : ℚ × ℚ) :
    applyOp m r p (Operation.stretch 1) = p := by
  simp [applyOp]

/-- Claim C10: appending `Twist(turns=0)`, `Fold(times=0)` or
`Stretch(factor=1)` to the operation list leaves the synthesized raster
unchanged, for every stack, operation list, width and height. -/
theorem C10_identity_ops (m : JsMath) (layers : List Material)
    (ops : List Operation) (w h : ℕ) :
    generatePattern m layers (ops ++ [Operation.twist 0]) w h
        = generatePattern m layers ops w h
    ∧ generatePattern m layers (ops ++ [Operation.fold 0]) w h
        = generatePattern m layers ops w h
    ∧ generatePattern m layers (ops ++ [Operation.stretch 1]) w h
        = generatePattern m layers ops w h := by
  refine ⟨?_, ?_, ?_⟩ <;>
    apply generatePattern_congr_pixel <;>
    intro x y <;>
    unfold pixel layerIndex finalV pipeV <;>
    rw [List.foldl_append, List.foldl_cons, List.foldl_nil] <;>
    first
      | rw [applyOp_twist_zero]
      | rw [applyOp_fold_zero]
      | rw [applyOp_stretch_one]

/-! ### C6: the instruction formatter and the bubble preview line -/

/-- Little-endian decimal digits with explicit fuel (structural recursion,
so it evaluates by kernel reduction). -/
def natDigitsRev (fuel n : ℕ) : List ℕ :=
  match fuel with
  | 0 => []
  | fuel + 1 => if n = 0 then [] else n % 10 :: natDigitsRev fuel (n / 10)

/-- Decimal rendering of a natural number, as JavaScript renders an integral
number. -/
def natToString (n : ℕ) : String :=
  if n = 0 then "0"
  else ((natDigitsRev n n).reverse.map fun d => Char.ofNat (48 + d)).asString

/-- Decimal rendering of an integer. -/
def intToString (n : ℤ) : String :=
  if n < 0 then "-" ++ natToString n.natAbs else natToString n.natAbs

/-- `v` rendered in decimal and left-padded with zeros to `k` digits. -/
def zeroPad (k v : ℕ) : String :=
  let s := natToString v
  ⟨List.replicate (k - s.length) '0'⟩ ++ s

/-- The least `k` with `den ∣ 10^k`, when one exists (for a reduced
denominator of the form `2^a·5^b` this is `max a b ≤ den`). -/
def fracK (den : ℕ) : ℕ :=
  (((List.range (den + 1)).find? fun k => 10 ^ k % den = 0)).getD 0

/-- Decimal rendering of a non-integral rational with a terminating decimal
expansion, as JavaScript renders such a double (e.g. `0.08`).  Doubles whose
shortest round-trip decimal is not the exact value of the rational are
outside this embedding. -/
def ratDecimalString (q : ℚ) : String :=
  (if q < 0 then "-" else "")
    ++ (let k := fracK |q|.den
        let N := |q|.num.toNat * (10 ^ k / |q|.den)
        natToString (N / 10 ^ k) ++ "." ++ zeroPad k (N % 10 ^ k))

/-- JavaScript template-literal rendering of a number. -/
def jsNumToString (q : ℚ) : String :=
  if q.den = 1 then intToString q.num else ratDecimalString q

/-- `Math.round`: round half toward positive infinity. -/
def jsRound (q : ℚ) : ℤ := ⌊q + 1/2⌋

/-- `Number.prototype.toFixed(k)`: the integer `n` with `n/10^k` closest to
the value, ties to the larger `n`, rendered with `k` decimal places. -/
def toFixedK (k : ℕ) (q : ℚ) : String :=
  let n := ⌊q * 10 ^ k + 1/2⌋
  (if n < 0 then "-" else "")
    ++ (natToString (n.natAbs / 10 ^ k) ++ "." ++ zeroPad k (n.natAbs % 10 ^ k))

/-- `instructionsFromOps`: one fixed-template line per operation. -/
def instructionsFromOps (ops : List Operation) : List String :=
  ops.map fun op =>
    match op with
    | .addSheets material count =>
        "Stack " ++ jsNumToString count ++ " sheet(s) of "
          ++ matName material ++ "."
    | .twist turns => "Twist billet ~" ++ jsNumToString turns ++ " full turn(s)."
    | .ladder spacing depth =>
        "Ladder grind: spacing " ++ jsNumToString spacing ++ ", depth "
          ++ jsNumToString depth ++ "."
    | .raindrops radius spacing =>
        "Raindrop punch: r " ++ jsNumToString radius ++ ", spacing "
          ++ jsNumToString spacing ++ "."
    | .wfolds folds => "W-pattern: " ++ jsNumToString folds ++ " folds."
    | .fold times =>
        "Fold billet " ++ jsNumToString times
          ++ "× (approx doubles layer count each fold)."
    | .stretch factor => "Draw out ×" ++ jsNumToString factor ++ "."

/-- The live sentence preview of the operation bubble (`previewLine`), whose
fold case shows the `2^floor(times)` layer multiplier and whose twist case
shows the rounded degree equivalent.  The bubble's switch has no `addSheets`
case and falls through to the empty default. -/
def previewLine (op : Operation) : String :=
  match op with
  | .twist turns =>
      "Twist billet ~" ++ toFixedK 2 turns ++ " turn(s) ("
        ++ intToString (jsRound (turns * 360)) ++ "°)."
  | .ladder spacing depth =>
      "Ladder grind — spacing " ++ toFixedK 2 spacing ++ ", depth "
        ++ toFixedK 2 depth ++ "."
  | .raindrops radius spacing =>
      "Raindrop — radius " ++ toFixedK 3 radius ++ ", spacing "
        ++ toFixedK 3 spacing ++ "."
  | .wfolds folds => "W-pattern seed — " ++ jsNumToString folds ++ " folds."
  | .fold times =>
      "Fold billet ×" ++ jsNumToString times ++ " (≈ ×"
        ++ jsNumToString ((2 : ℚ) ^ (⌊times⌋.toNat)) ++ " layers)."
  | .stretch factor =>
      "Draw out ×" ++ toFixedK 2 factor ++ " (compresses pattern along length)."
  | .addSheets _ _ => ""

/-- Counterexample to C6 as stated: the instruction formatter's fold line for
`times = 2` never mentions the `2² = 4` layer multiplier (no `'4'` occurs in
it), and its twist line shows only the turns, never the `360°` degree
equivalent (no `'3'` occurs in it). -/
theorem C6_formatter_counterexample :
    instructionsFromOps [Operation.fold 2]
      = ["Fold billet 2× (approx doubles layer count each fold)."]
    ∧ '4' ∉ ("Fold billet 2× (approx doubles layer count each fold).").toList
    ∧ instructionsFromOps [Operation.twist 1] = ["Twist billet ~1 full turn(s)."]
    ∧ '3' ∉ ("Twist billet ~1 full turn(s).").toList :=
  ⟨by decide, by decide, by decide, by decide⟩

/-- Claim C6, amended: the instruction formatter shows a fold as
`Fold billet {times}× (approx doubles layer count each fold).` with no
`2^floor(times)` multiplier, and a twist as
`Twist billet ~{turns} full turn(s).` with no degree equivalent; the
`2^floor(times)` multiplier (`×4` for `times = 2`) and the rounded
`turns × 360` degree figure appear only in the operation editor's preview
line. -/
theorem C6_formatter_amended :
    instructionsFromOps [Operation.fold 2]
      = ["Fold billet 2× (approx doubles layer count each fold)."]
    ∧ instructionsFromOps [Operation.twist 1] = ["Twist billet ~1 full turn(s)."]
    ∧ previewLine (Operation.fold 2) = "Fold billet ×2 (≈ ×4 layers)."
    ∧ previewLine (Operation.twist 1) = "Twist billet ~1.00 turn(s) (360°)." := by
  have hpow : (2 : ℚ) ^ (⌊(2:ℚ)⌋.toNat) = 4 := by
    rw [show (⌊(2:ℚ)⌋).toNat = 2 by rw [show ⌊(2:ℚ)⌋ = 2 by norm_num]; rfl]
    norm_num
  have hfix : toFixedK 2 1 = "1.00" := by
    unfold toFixedK
    rw [show ⌊(1:ℚ) * 10 ^ 2 + 1/2⌋ = 100 by norm_num]
    decide
  have hround : jsRound ((1:ℚ) * 360) = 360 := by
    unfold jsRound
    norm_num
  refine ⟨by decide, by decide, ?_, ?_⟩
  · simp only [previewLine]
    rw [hpow]
    decide
  · simp only [previewLine]
    rw [hfix, hround]
    decide

/-! ### C7: the share-token encoding

`encode = (obj) => encodeURIComponent(btoa(unescape(encodeURIComponent(JSON.stringify(obj)))))`
`decode = (s) => JSON.parse(decodeURIComponent(escape(atob(s))))`

JavaScript values reaching `JSON.stringify` here are the recipe objects
`\x7b layers, ops \x7d`; JSON trees are embedded as a mutual inductive so that
structural recursion and induction stay simple.  JavaScript doubles are
embedded as `ℚ` as everywhere else in this file. -/

mutual
inductive Json where
  | null : Json
  | bool (b : Bool) : Json
  | num (q : ℚ) : Json
  | str (s : List Char) : Json
  | arr (elems : JsonList) : Json
  | obj (fields : JsonFields) : Json
inductive JsonList where
  | nil : JsonList
  | cons (hd : Json) (tl : JsonList) : JsonList
inductive JsonFields where
  | nil : JsonFields
  | cons (key : List Char) (val : Json) (tl : JsonFields) : JsonFields
end

/-- Lowercase and uppercase hexadecimal digits. -/
def hexDigitLower (n : ℕ) : Char :=
  if n < 10 then Char.ofNat (48 + n) else Char.ofNat (87 + n)

def hexDigitUpper (n : ℕ) : Char :=
  if n < 10 then Char.ofNat (48 + n) else Char.ofNat (55 + n)

/-- `JSON.stringify` string escaping for one character. -/
def escChar (c : Char) : List Char :=
  if c = '"' then ['\\', '"']
  else if c = '\\' then ['\\', '\\']
  else if c = '\x08' then ['\\', 'b']
  else if c = '\x0c' then ['\\', 'f']
  else if c = '\n' then ['\\', 'n']
  else if c = '\r' then ['\\', 'r']
  else if c = '\t' then ['\\', 't']
  else if c.toNat < 32 then
    ['\\', 'u', '0', '0', hexDigitLower (c.toNat / 16), hexDigitLower (c.toNat % 16)]
  else [c]

def escStr : List Char → List Char
  | [] => []
  | c :: rest => escChar c ++ escStr rest

mutual
/-- `JSON.stringify` with no spacing, keys in insertion order. -/
def printJson : Json → List Char
  | .null => "null".data
  | .bool true => "true".data
  | .bool false => "false".data
  | .num q => (jsNumToString q).data
  | .str s => '"' :: (escStr s ++ ['"'])
  | .arr l => '[' :: (printList l ++ [']'])
  | .obj fl => '\x7b' :: (printFields fl ++ ['\x7d'])
def printList : JsonList → List Char
  | .nil => []
  | .cons e .nil => printJson e
  | .cons e tl => printJson e ++ ',' :: printList tl
def printFields : JsonFields → List Char
  | .nil => []
  | .cons k v .nil => '"' :: (escStr k ++ '"' :: ':' :: printJson v)
  | .cons k v tl =>
      ('"' :: (escStr k ++ '"' :: ':' :: printJson v)) ++ ',' :: printFields tl
end

/-- JSON whitespace. -/
def jsonWs (c : Char) : Bool := c = ' ' || c = '\t' || c = '\n' || c = '\r'

def skipWs (cs : List Char) : List Char := cs.dropWhile jsonWs

def fromHexDigit (c : Char) : Option ℕ :=
  if 48 ≤ c.toNat ∧ c.toNat ≤ 57 then some (c.toNat - 48)
  else if 65 ≤ c.toNat ∧ c.toNat ≤ 70 then some (c.toNat - 55)
  else if 97 ≤ c.toNat ∧ c.toNat ≤ 102 then some (c.toNat - 87)
  else none

def simpleEsc (c : Char) : Option Char :=
  if c = '"' then some '"'
  else if c = '\\' then some '\\'
  else if c = '/' then some '/'
  else if c = 'b' then some '\x08'
  else if c = 'f' then some '\x0c'
  else if c = 'n' then some '\n'
  else if c = 'r' then some '\r'
  else if c = 't' then some '\t'
  else none

/-- The body of a JSON string after the opening quote, up to the closing
quote.  A `\u` escape denoting a UTF-16 surrogate is not a unicode scalar
and is rejected by the embedding (JavaScript strings could hold it). -/
def parseStrBody : List Char → Option (List Char × List Char)
  | [] => none
  | c :: tl =>
    if c = '"' then some ([], tl)
    else if c = '\\' then
      match tl with
      | [] => none
      | e :: tl2 =>
        if e = 'u' then
          match tl2 with
          | h1 :: h2 :: h3 :: h4 :: rest =>
            (match fromHexDigit h1, fromHexDigit h2, fromHexDigit h3, fromHexDigit h4 with
             | some a, some b, some x, some d =>
                if Nat.isValidChar (((a * 16 + b) * 16 + x) * 16 + d) then
                  (parseStrBody rest).map fun p =>
                    (Char.ofNat (((a * 16 + b) * 16 + x) * 16 + d) :: p.1, p.2)
                else none
             | _, _, _, _ => none)
          | _ => none
        else
          match simpleEsc e with
          | some ec => (parseStrBody tl2).map fun p => (ec :: p.1, p.2)
          | none => none
    else if c.toNat < 32 then none
    else (parseStrBody tl).map fun p => (c :: p.1, p.2)

def parseDigits : List Char → List ℕ × List Char
  | [] => ([], [])
  | c :: rest =>
      if c.isDigit then
        let p := parseDigits rest
        ((c.toNat - 48) :: p.1, p.2)
      else ([], c :: rest)

def digitsVal (ds : List ℕ) : ℕ := ds.foldl (fun a d => 10 * a + d) 0

/-- Optional fraction part `.digits`. -/
def parseFrac : List Char → Option (ℚ × List Char)
  | [] => some (0, [])
  | c :: rest =>
      if c = '.' then
        match parseDigits rest with
        | ([], _) => none
        | (ds, r) => some ((digitsVal ds : ℚ) / 10 ^ ds.length, r)
      else some (0, c :: rest)

/-- Optional exponent part `e[+-]digits`. -/
def parseExp : List Char → Option (ℤ × List Char)
  | [] => some (0, [])
  | c :: rest =>
      if c = 'e' ∨ c = 'E' then
        match rest with
        | '+' :: r =>
            (match parseDigits r with
             | ([], _) => none
             | (ds, r2) => some ((digitsVal ds : ℤ), r2))
        | '-' :: r =>
            (match parseDigits r with
             | ([], _) => none
             | (ds, r2) => some (-(digitsVal ds : ℤ), r2))
        | r =>
            (match parseDigits r with
             | ([], _) => none
             | (ds, r2) => some ((digitsVal ds : ℤ), r2))
      else some (0, c :: rest)

/-- A JSON number without the sign: integer part (no redundant leading
zero), optional fraction, optional exponent. -/
def parseNumNN (cs : List Char) : Option (ℚ × List Char) :=
  match parseDigits cs with
  | ([], _) => none
  | (ds, r1) =>
    if 1 < ds.length ∧ ds.headD 0 = 0 then none
    else
      (parseFrac r1).bind fun pf =>
        (parseExp pf.2).map fun pe =>
          (((digitsVal ds : ℚ) + pf.1) * 10 ^ pe.1, pe.2)

def parseNum (cs : List Char) : Option (ℚ × List Char) :=
  match cs with
  | [] => none
  | c :: r =>
      if c = '-' then (parseNumNN r).map fun p => (-p.1, p.2)
      else parseNumNN (c :: r)

mutual
/-- `JSON.parse`, fuel-indexed recursive descent on the character list. -/
def parseVal : ℕ → List Char → Option (Json × List Char)
  | 0, _ => none
  | fuel + 1, cs =>
    match cs with
    | [] => none
    | c :: rest =>
      if c = '"' then (parseStrBody rest).map fun p => (.str p.1, p.2)
      else if c = '[' then
        let r1 := skipWs rest
        if r1.head? = some ']' then some (.arr .nil, r1.tail)
        else (parseItems fuel r1).map fun p => (.arr p.1, p.2)
      else if c = '\x7b' then
        let r1 := skipWs rest
        if r1.head? = some '\x7d' then some (.obj .nil, r1.tail)
        else (parseFields fuel r1).map fun p => (.obj p.1, p.2)
      else if c = 'n' then
        match rest with
        | 'u' :: 'l' :: 'l' :: r => some (.null, r)
        | _ => none
      else if c = 't' then
        match rest with
        | 'r' :: 'u' :: 'e' :: r => some (.bool true, r)
        | _ => none
      else if c = 'f' then
        match rest with
        | 'a' :: 'l' :: 's' :: 'e' :: r => some (.bool false, r)
        | _ => none
      else (parseNum (c :: rest)).map fun p => (.num p.1, p.2)
def parseItems : ℕ → List Char → Option (JsonList × List Char)
  | 0, _ => none
  | fuel + 1, cs =>
    (parseVal fuel cs).bind fun p =>
      let r1 := skipWs p.2
      if r1.head? = some ',' then
        (parseItems fuel (skipWs r1.tail)).map fun q => (.cons p.1 q.1, q.2)
      else if r1.head? = some ']' then some (.cons p.1 .nil, r1.tail)
      else none
def parseFields : ℕ → List Char → Option (JsonFields × List Char)
  | 0, _ => none
  | fuel + 1, cs =>
    match cs with
    | '"' :: rest =>
      (parseStrBody rest).bind fun pk =>
        let r1 := skipWs pk.2
        if r1.head? = some ':' then
          (parseVal fuel (skipWs r1.tail)).bind fun pv =>
            let r2 := skipWs pv.2
            if r2.head? = some ',' then
              (parseFields fuel (skipWs r2.tail)).map fun q =>
                (.cons pk.1 pv.1 q.1, q.2)
            else if r2.head? = some '\x7d' then
              some (.cons pk.1 pv.1 .nil, r2.tail)
            else none
        else none
    | _ => none
end

def jsonParse (s : String) : Option Json :=
  match parseVal (s.data.length + 1) (skipWs s.data) with
  | some p => if skipWs p.2 = [] then some p.1 else none
  | none => none

/-! #### encodeURIComponent / unescape / escape / decodeURIComponent -/

/-- UTF-8 bytes of a unicode scalar. -/
def utf8Bytes (c : Char) : List ℕ :=
  let n := c.toNat
  if n < 128 then [n]
  else if n < 2048 then [192 + n / 64, 128 + n % 64]
  else if n < 65536 then [224 + n / 4096, 128 + n / 64 % 64, 128 + n % 64]
  else [240 + n / 262144, 128 + n / 4096 % 64, 128 + n / 64 % 64, 128 + n % 64]

/-- The characters `encodeURIComponent` leaves unencoded. -/
def uriUnreserved (c : Char) : Bool :=
  c.isAlpha || c.isDigit || c = '-' || c = '_' || c = '.' || c = '!'
    || c = '~' || c = '*' || c = '\'' || c = '(' || c = ')'

def pctByte (b : ℕ) : List Char := ['%', hexDigitUpper (b / 16), hexDigitUpper (b % 16)]

def pctBytes : List ℕ → List Char
  | [] => []
  | b :: t => pctByte b ++ pctBytes t

def pctEncList : List Char → List Char
  | [] => []
  | c :: rest =>
      (if uriUnreserved c then [c] else pctBytes (utf8Bytes c)) ++ pctEncList rest

def encodeURIComponent (s : String) : String := ⟨pctEncList s.data⟩

/-- `unescape`: decode `%uXXXX` and `%XX` sequences, leave everything else.
A `%uXXXX` naming a UTF-16 surrogate is not a unicode scalar; `Char.ofNat`
maps it to the default character (JavaScript strings could hold it). -/
def unescCore : ℕ → List Char → List Char
  | 0, cs => cs
  | _ + 1, [] => []
  | fuel + 1, c :: tl =>
    if c = '%' then
      match tl with
      | [] => ['%']
      | d :: tl2 =>
        if d = 'u' then
          match tl2 with
          | h1 :: h2 :: h3 :: h4 :: rest =>
            (match fromHexDigit h1, fromHexDigit h2, fromHexDigit h3, fromHexDigit h4 with
             | some a, some b, some x, some e =>
                Char.ofNat (((a * 16 + b) * 16 + x) * 16 + e) :: unescCore fuel rest
             | _, _, _, _ => '%' :: unescCore fuel tl)
          | _ => '%' :: unescCore fuel tl
        else
          match tl2 with
          | h2 :: rest =>
            (match fromHexDigit d, fromHexDigit h2 with
             | some a, some b => Char.ofNat (a * 16 + b) :: unescCore fuel rest
             | _, _ => '%' :: unescCore fuel tl)
          | [] => '%' :: unescCore fuel tl
    else c :: unescCore fuel tl

def unescapeList (cs : List Char) : List Char := unescCore cs.length cs

def unescape (s : String) : String := ⟨unescapeList s.data⟩

/-- The characters `escape` leaves unencoded. -/
def escSafe (c : Char) : Bool :=
  c.isAlpha || c.isDigit || c = '@' || c = '*' || c = '_' || c = '+'
    || c = '-' || c = '.' || c = '/'

def escapeList : List Char → List Char
  | [] => []
  | c :: rest =>
      (if escSafe c then [c]
       else if c.toNat < 256 then pctByte c.toNat
       else ['%', 'u', hexDigitUpper (c.toNat / 4096), hexDigitUpper (c.toNat / 256 % 16),
             hexDigitUpper (c.toNat / 16 % 16), hexDigitUpper (c.toNat % 16)])
        ++ escapeList rest

def escape (s : String) : String := ⟨escapeList s.data⟩

/-- `decodeURIComponent`: percent sequences are decoded as validated UTF-8
(stray continuations, overlong forms, surrogates and out-of-range values
throw, i.e. return `none`). -/
def decURICore : ℕ → List Char → Option (List Char)
  | 0, _ => none
  | _ + 1, [] => some []
  | fuel + 1, c :: tl =>
    if c = '%' then
      match tl with
      | h1 :: h2 :: rest =>
        (match fromHexDigit h1, fromHexDigit h2 with
         | some a, some b =>
            let byte := a * 16 + b
            if byte < 128 then (decURICore fuel rest).map fun t => Char.ofNat byte :: t
            else if byte < 192 then none
            else if byte < 224 then
              match rest with
              | '%' :: g1 :: g2 :: rest2 =>
                (match fromHexDigit g1, fromHexDigit g2 with
                 | some x, some y =>
                    let b2 := x * 16 + y
                    if 128 ≤ b2 ∧ b2 < 192 ∧ 128 ≤ (byte - 192) * 64 + (b2 - 128) then
                      (decURICore fuel rest2).map fun t =>
                        Char.ofNat ((byte - 192) * 64 + (b2 - 128)) :: t
                    else none
                 | _, _ => none)
              | _ => none
            else if byte < 240 then
              match rest with
              | '%' :: g1 :: g2 :: '%' :: g3 :: g4 :: rest2 =>
                (match fromHexDigit g1, fromHexDigit g2, fromHexDigit g3, fromHexDigit g4 with
                 | some x, some y, some z, some w =>
                    let b2 := x * 16 + y
                    let b3 := z * 16 + w
                    let n := (byte - 224) * 4096 + (b2 - 128) * 64 + (b3 - 128)
                    if 128 ≤ b2 ∧ b2 < 192 ∧ 128 ≤ b3 ∧ b3 < 192 ∧ 2048 ≤ n
                        ∧ Nat.isValidChar n then
                      (decURICore fuel rest2).map fun t => Char.ofNat n :: t
                    else none
                 | _, _, _, _ => none)
              | _ => none
            else if byte < 248 then
              match rest with
              | '%' :: g1 :: g2 :: '%' :: g3 :: g4 :: '%' :: g5 :: g6 :: rest2 =>
                (match fromHexDigit g1, fromHexDigit g2, fromHexDigit g3,
                    fromHexDigit g4, fromHexDigit g5, fromHexDigit g6 with
                 | some x, some y, some z, some w, some v, some u =>
                    let b2 := x * 16 + y
                    let b3 := z * 16 + w
                    let b4 := v * 16 + u
                    let n := (byte - 240) * 262144 + (b2 - 128) * 4096
                      + (b3 - 128) * 64 + (b4 - 128)
                    if 128 ≤ b2 ∧ b2 < 192 ∧ 128 ≤ b3 ∧ b3 < 192 ∧ 128 ≤ b4 ∧ b4 < 192
                        ∧ 65536 ≤ n ∧ n < 1114112 then
                      (decURICore fuel rest2).map fun t => Char.ofNat n :: t
                    else none
                 | _, _, _, _, _, _ => none)
              | _ => none
            else none
         | _, _ => none)
      | _ => none
    else (decURICore fuel tl).map fun t => c :: t

def decURIList (cs : List Char) : Option (List Char) := decURICore (cs.length + 1) cs

def decodeURIComponent (s : String) : Option String :=
  (decURIList s.data).map fun l => ⟨l⟩

/-! #### btoa / atob -/

def b64Char (n : ℕ) : Char :=
  if n < 26 then Char.ofNat (65 + n)
  else if n < 52 then Char.ofNat (71 + n)
  else if n < 62 then Char.ofNat (n - 4)
  else if n = 62 then '+' else '/'

def b64Index (c : Char) : Option ℕ :=
  if 65 ≤ c.toNat ∧ c.toNat ≤ 90 then some (c.toNat - 65)
  else if 97 ≤ c.toNat ∧ c.toNat ≤ 122 then some (c.toNat - 71)
  else if 48 ≤ c.toNat ∧ c.toNat ≤ 57 then some (c.toNat + 4)
  else if c = '+' then some 62
  else if c = '/' then some 63
  else none

def btoaBytes : List ℕ → List Char
  | [] => []
  | [a] => [b64Char (a / 4), b64Char (a % 4 * 16), '=', '=']
  | [a, b] => [b64Char (a / 4), b64Char (a % 4 * 16 + b / 16), b64Char (b % 16 * 4), '=']
  | a :: b :: c :: rest =>
      b64Char (a / 4) :: b64Char (a % 4 * 16 + b / 16)
        :: b64Char (b % 16 * 4 + c / 64) :: b64Char (c % 64) :: btoaBytes rest

/-- `btoa` throws on any character above `U+00FF`. -/
def btoa (s : String) : Option String :=
  if s.data.all (fun c => c.toNat ≤ 255) then
    some ⟨btoaBytes (s.data.map Char.toNat)⟩
  else none

def asciiWs (c : Char) : Bool :=
  c.toNat = 9 || c.toNat = 10 || c.toNat = 12 || c.toNat = 13 || c.toNat = 32

/-- Remove at most two trailing padding characters. -/
def stripPad : List Char → List Char
  | [] => []
  | c :: rest =>
      if c = '=' then
        (if rest = [] then [] else if rest = ['='] then [] else c :: stripPad rest)
      else c :: stripPad rest

def b64IndexAll : List Char → Option (List ℕ)
  | [] => some []
  | c :: t =>
      match b64Index c with
      | some i => (b64IndexAll t).map fun l => i :: l
      | none => none

def b64DecodeSyms : List ℕ → Option (List ℕ)
  | [] => some []
  | [_] => none
  | [a, b] => some [a * 4 + b / 16]
  | [a, b, c] => some [a * 4 + b / 16, b % 16 * 16 + c / 4]
  | a :: b :: c :: d :: rest =>
      (b64DecodeSyms rest).map fun t =>
        (a * 4 + b / 16) :: (b % 16 * 16 + c / 4) :: (c % 4 * 64 + d) :: t

/-- `atob` (forgiving base64): strip ASCII whitespace, strip up to two
trailing `=` when the length is a multiple of four, reject a remainder of
one and any character outside the alphabet. -/
def atob (s : String) : Option String :=
  let cs0 := s.data.filter fun c => ! asciiWs c
  let cs := if cs0.length % 4 = 0 then stripPad cs0 else cs0
  if cs.length % 4 = 1 then none
  else (b64IndexAll cs).bind fun syms =>
    (b64DecodeSyms syms).map fun bytes => ⟨bytes.map Char.ofNat⟩

/-! #### The recipe, its JSON tree, and the pair from the source -/

/-- The serializable state: `\x7b layers, ops \x7d`. -/
structure Recipe where
  layers : List Material
  ops : List Operation

def jstr (s : String) : Json := .str s.data

/-- The JSON tree of an operation record (keys in insertion order). -/
def opJson : Operation → Json
  | .addSheets material count =>
      .obj (.cons "kind".data (jstr "addSheets")
        (.cons "material".data (.str (idString material).data)
          (.cons "count".data (.num count) .nil)))
  | .twist turns =>
      .obj (.cons "kind".data (jstr "twist") (.cons "turns".data (.num turns) .nil))
  | .ladder spacing depth =>
      .obj (.cons "kind".data (jstr "ladder")
        (.cons "spacing".data (.num spacing) (.cons "depth".data (.num depth) .nil)))
  | .raindrops radius spacing =>
      .obj (.cons "kind".data (jstr "raindrops")
        (.cons "radius".data (.num radius) (.cons "spacing".data (.num spacing) .nil)))
  | .wfolds folds =>
      .obj (.cons "kind".data (jstr "wfolds") (.cons "folds".data (.num folds) .nil))
  | .fold times =>
      .obj (.cons "kind".data (jstr "fold") (.cons "times".data (.num times) .nil))
  | .stretch factor =>
      .obj (.cons "kind".data (jstr "stretch") (.cons "factor".data (.num factor) .nil))

def jarrOf : List Json → JsonList
  | [] => .nil
  | j :: t => .cons j (jarrOf t)

def toJson (r : Recipe) : Json :=
  .obj (.cons "layers".data
      (.arr (jarrOf (r.layers.map fun mt => Json.str (idString mt).data)))
    (.cons "ops".data (.arr (jarrOf (r.ops.map opJson))) .nil))

/-- `encode` from the source (line 1021). -/
def encode (j : Json) : Option String :=
  (btoa (unescape (encodeURIComponent ⟨printJson j⟩))).map encodeURIComponent

/-- `decode` from the source (line 1022). -/
def decode (s : String) : Option Json :=
  (atob s).bind fun t => (decodeURIComponent (escape t)).bind fun u => jsonParse u

/-! #### Round trips of the percent encodings on ASCII text -/

theorem fromHexDigit_hexUpper : ∀ n < 16, fromHexDigit (hexDigitUpper n) = some n := by
  decide

theorem hexUpper_ne_u : ∀ n < 16, hexDigitUpper n ≠ 'u' := by decide

theorem uriUnreserved_ne_pct {c : Char} (h : uriUnreserved c = true) : c ≠ '%' := by
  intro he
  subst he
  exact absurd h (by decide)

theorem escSafe_ne_pct {c : Char} (h : escSafe c = true) : c ≠ '%' := by
  intro he
  subst he
  exact absurd h (by decide)

theorem utf8Bytes_ascii {c : Char} (h : c.toNat < 128) : utf8Bytes c = [c.toNat] := by
  simp [utf8Bytes, h]

theorem unescCore_pctEncList : ∀ (cs : List Char) (fuel : ℕ),
    (∀ c ∈ cs, c.toNat < 128) → (pctEncList cs).length ≤ fuel →
    unescCore fuel (pctEncList cs) = cs := by
  intro cs
  induction cs with
  | nil => intro fuel _ _; cases fuel <;> rfl
  | cons c rest ih =>
    intro fuel hascii hlen
    have hc : c.toNat < 128 := hascii c (by simp)
    have hrest : ∀ x ∈ rest, x.toNat < 128 := fun x hx => hascii x (by simp [hx])
    by_cases hu : uriUnreserved c = true
    · have hpe : pctEncList (c :: rest) = c :: pctEncList rest := by
        simp [pctEncList, hu]
      rw [hpe] at hlen ⊢
      obtain ⟨f, rfl⟩ : ∃ f, fuel = f + 1 := by
        cases fuel
        · simp at hlen
        · exact ⟨_, rfl⟩
      have hlen2 : (pctEncList rest).length ≤ f := by
        simp only [List.length_cons] at hlen
        omega
      simp only [unescCore]
      rw [if_neg (uriUnreserved_ne_pct hu), ih f hrest hlen2]
    · have hpe : pctEncList (c :: rest) = '%' :: hexDigitUpper (c.toNat / 16)
          :: hexDigitUpper (c.toNat % 16) :: pctEncList rest := by
        simp [pctEncList, hu, utf8Bytes_ascii hc, pctBytes, pctByte]
      rw [hpe] at hlen ⊢
      obtain ⟨f, rfl⟩ : ∃ f, fuel = f + 1 := by
        cases fuel
        · simp at hlen
        · exact ⟨_, rfl⟩
      have hlen2 : (pctEncList rest).length ≤ f := by
        simp only [List.length_cons] at hlen
        omega
      have hhi : c.toNat / 16 < 16 := by omega
      have hlo : c.toNat % 16 < 16 := by omega
      simp only [unescCore, if_pos rfl]
      rw [if_neg (hexUpper_ne_u _ hhi)]
      rw [fromHexDigit_hexUpper _ hhi, fromHexDigit_hexUpper _ hlo]
      simp only []
      rw [show c.toNat / 16 * 16 + c.toNat % 16 = c.toNat by omega, Char.ofNat_toNat,
        ih f hrest hlen2]
      simp

theorem decURICore_pctEncList : ∀ (cs : List Char) (fuel : ℕ),
    (∀ c ∈ cs, c.toNat < 128) → (pctEncList cs).length < fuel →
    decURICore fuel (pctEncList cs) = some cs := by
  intro cs
  induction cs with
  | nil =>
    intro fuel _ hlen
    obtain ⟨f, rfl⟩ : ∃ f, fuel = f + 1 := by
      cases fuel
      · simp [pctEncList] at hlen
      · exact ⟨_, rfl⟩
    rfl
  | cons c rest ih =>
    intro fuel hascii hlen
    have hc : c.toNat < 128 := hascii c (by simp)
    have hrest : ∀ x ∈ rest, x.toNat < 128 := fun x hx => hascii x (by simp [hx])
    by_cases hu : uriUnreserved c = true
    · have hpe : pctEncList (c :: rest) = c :: pctEncList rest := by
        simp [pctEncList, hu]
      rw [hpe] at hlen ⊢
      obtain ⟨f, rfl⟩ : ∃ f, fuel = f + 1 := by
        cases fuel
        · simp at hlen
        · exact ⟨_, rfl⟩
      have hlen2 : (pctEncList rest).length < f := by
        simp only [List.length_cons] at hlen
        omega
      simp only [decURICore]
      rw [if_neg (uriUnreserved_ne_pct hu), ih f hrest hlen2]
      rfl
    · have hpe : pctEncList (c :: rest) = '%' :: hexDigitUpper (c.toNat / 16)
          :: hexDigitUpper (c.toNat % 16) :: pctEncList rest := by
        simp [pctEncList, hu, utf8Bytes_ascii hc, pctBytes, pctByte]
      rw [hpe] at hlen ⊢
      obtain ⟨f, rfl⟩ : ∃ f, fuel = f + 1 := by
        cases fuel
        · simp at hlen
        · exact ⟨_, rfl⟩
      have hlen2 : (pctEncList rest).length < f := by
        simp only [List.length_cons] at hlen
        omega
      have hhi : c.toNat / 16 < 16 := by omega
      have hlo : c.toNat % 16 < 16 := by omega
      simp only [decURICore, if_pos rfl]
      rw [fromHexDigit_hexUpper _ hhi, fromHexDigit_hexUpper _ hlo]
      simp only []
      rw [if_pos (by omega : c.toNat / 16 * 16 + c.toNat % 16 < 128)]
      rw [ih f hrest hlen2]
      simp only [Option.map_some']
      rw [show c.toNat / 16 * 16 + c.toNat % 16 = c.toNat by omega, Char.ofNat_toNat]
      simp

theorem decURICore_escapeList : ∀ (cs : List Char) (fuel : ℕ),
    (∀ c ∈ cs, c.toNat < 128) → (escapeList cs).length < fuel →
    decURICore fuel (escapeList cs) = some cs := by
  intro cs
  induction cs with
  | nil =>
    intro fuel _ hlen
    obtain ⟨f, rfl⟩ : ∃ f, fuel = f + 1 := by
      cases fuel
      · simp [escapeList] at hlen
      · exact ⟨_, rfl⟩
    rfl
  | cons c rest ih =>
    intro fuel hascii hlen
    have hc : c.toNat < 128 := hascii c (by simp)
    have hrest : ∀ x ∈ rest, x.toNat < 128 := fun x hx => hascii x (by simp [hx])
    by_cases hu : escSafe c = true
    · have hpe : escapeList (c :: rest) = c :: escapeList rest := by
        simp [escapeList, hu]
      rw [hpe] at hlen ⊢
      obtain ⟨f, rfl⟩ : ∃ f, fuel = f + 1 := by
        cases fuel
        · simp at hlen
        · exact ⟨_, rfl⟩
      have hlen2 : (escapeList rest).length < f := by
        simp only [List.length_cons] at hlen
        omega
      simp only [decURICore]
      rw [if_neg (escSafe_ne_pct hu), ih f hrest hlen2]
      rfl
    · have hpe : escapeList (c :: rest) = '%' :: hexDigitUpper (c.toNat / 16)
          :: hexDigitUpper (c.toNat % 16) :: escapeList rest := by
        simp [escapeList, hu, pctByte, if_pos (by omega : c.toNat < 256)]
      rw [hpe] at hlen ⊢
      obtain ⟨f, rfl⟩ : ∃ f, fuel = f + 1 := by
        cases fuel
        · simp at hlen
        · exact ⟨_, rfl⟩
      have hlen2 : (escapeList rest).length < f := by
        simp only [List.length_cons] at hlen
        omega
      have hhi : c.toNat / 16 < 16 := by omega
      have hlo : c.toNat % 16 < 16 := by omega
      simp only [decURICore, if_pos rfl]
      rw [fromHexDigit_hexUpper _ hhi, fromHexDigit_hexUpper _ hlo]
      simp only []
      rw [if_pos (by omega : c.toNat / 16 * 16 + c.toNat % 16 < 128)]
      rw [ih f hrest hlen2]
      simp only [Option.map_some']
      rw [show c.toNat / 16 * 16 + c.toNat % 16 = c.toNat by omega, Char.ofNat_toNat]
      simp

/-- `unescape(encodeURIComponent(s)) = s` on ASCII text. -/
theorem unescape_encodeURIComponent (s : String)
    (h : ∀ c ∈ s.data, c.toNat < 128) : unescape (encodeURIComponent s) = s := by
  show (⟨unescCore (pctEncList s.data).length (pctEncList s.data)⟩ : String) = s
  rw [unescCore_pctEncList s.data _ h (le_refl _)]

/-- `decodeURIComponent(encodeURIComponent(s)) = s` on ASCII text. -/
theorem decodeURIComponent_encodeURIComponent (s : String)
    (h : ∀ c ∈ s.data, c.toNat < 128) :
    decodeURIComponent (encodeURIComponent s) = some s := by
  show (decURICore ((pctEncList s.data).length + 1) (pctEncList s.data)).map _ = _
  rw [decURICore_pctEncList s.data _ h (Nat.lt_succ_self _)]
  rfl

/-- `decodeURIComponent(escape(s)) = s` on ASCII text. -/
theorem decodeURIComponent_escape (s : String)
    (h : ∀ c ∈ s.data, c.toNat < 128) :
    decodeURIComponent (escape s) = some s := by
  show (decURICore ((escapeList s.data).length + 1) (escapeList s.data)).map _ = _
  rw [decURICore_escapeList s.data _ h (Nat.lt_succ_self _)]
  rfl

/-! #### Round trip of the base64 pair -/

/-- The non-padding base64 symbols of a byte list (what `stripPad` leaves of
`btoaBytes`). -/
def b64SymsOf : List ℕ → List Char
  | [] => []
  | [a] => [b64Char (a / 4), b64Char (a % 4 * 16)]
  | [a, b] => [b64Char (a / 4), b64Char (a % 4 * 16 + b / 16), b64Char (b % 16 * 4)]
  | a :: b :: c :: rest =>
      b64Char (a / 4) :: b64Char (a % 4 * 16 + b / 16)
        :: b64Char (b % 16 * 4 + c / 64) :: b64Char (c % 64) :: b64SymsOf rest

theorem b64Index_b64Char : ∀ n < 64, b64Index (b64Char n) = some n := by decide

theorem b64Char_ne_pad : ∀ n < 64, b64Char n ≠ '=' := by decide

theorem b64Char_not_ws : ∀ n < 64, asciiWs (b64Char n) = false := by decide

theorem b64Char_ascii : ∀ n < 64, (b64Char n).toNat < 128 := by decide

theorem chunk3_induction (P : List ℕ → Prop) (h0 : P []) (h1 : ∀ a, P [a])
    (h2 : ∀ a b, P [a, b])
    (h3 : ∀ a b c rest, P rest → P (a :: b :: c :: rest)) : ∀ bs, P bs := by
  have key : ∀ (N : ℕ) (bs : List ℕ), bs.length ≤ N → P bs := by
    intro N
    induction N with
    | zero =>
      intro bs h
      rw [List.eq_nil_of_length_eq_zero (Nat.le_zero.1 h)]
      exact h0
    | succ N ihN =>
      intro bs h
      match bs with
      | [] => exact h0
      | [a] => exact h1 a
      | [a, b] => exact h2 a b
      | a :: b :: c :: rest =>
        refine h3 a b c rest (ihN rest ?_)
        simp only [List.length_cons] at h
        omega

  exact fun bs => key bs.length bs (le_refl _)

theorem stripPad_cons_ne {c : Char} (h : c ≠ '=') (t : List Char) :
    stripPad (c :: t) = c :: stripPad t := by
  simp [stripPad, h]

theorem btoaBytes_not_ws (bs : List ℕ) (hb : ∀ b ∈ bs, b < 256) :
    ∀ c ∈ btoaBytes bs, asciiWs c = false := by
  induction bs using chunk3_induction with
  | h0 => simp [btoaBytes]
  | h1 a =>
    have ha : a < 256 := hb a (by simp)
    intro c hc
    simp only [btoaBytes, List.mem_cons, List.mem_singleton] at hc
    rcases hc with rfl | rfl | rfl | hc
    · exact b64Char_not_ws _ (by omega)
    · exact b64Char_not_ws _ (by omega)
    · decide
    · simp at hc
      rw [hc]
      decide
  | h2 a b =>
    have ha : a < 256 := hb a (by simp)
    have hbb : b < 256 := hb b (by simp)
    intro c hc
    simp only [btoaBytes, List.mem_cons, List.mem_singleton] at hc
    rcases hc with rfl | rfl | rfl | hc
    · exact b64Char_not_ws _ (by omega)
    · exact b64Char_not_ws _ (by omega)
    · exact b64Char_not_ws _ (by omega)
    · simp at hc
      rw [hc]
      decide
  | h3 a b c rest ih =>
    have ha : a < 256 := hb a (by simp)
    have hbb : b < 256 := hb b (by simp)
    have hcc : c < 256 := hb c (by simp)
    have hrest : ∀ x ∈ rest, x < 256 := fun x hx => hb x (by simp [hx])
    intro d hd
    simp only [btoaBytes, List.mem_cons] at hd
    rcases hd with rfl | rfl | rfl | rfl | hd
    · exact b64Char_not_ws _ (by omega)
    · exact b64Char_not_ws _ (by omega)
    · exact b64Char_not_ws _ (by omega)
    · exact b64Char_not_ws _ (by omega)
    · exact ih hrest d hd

theorem btoaBytes_length_mod4 (bs : List ℕ) : (btoaBytes bs).length % 4 = 0 := by
  induction bs using chunk3_induction with
  | h0 => rfl
  | h1 a => simp [btoaBytes]
  | h2 a b => simp [btoaBytes]
  | h3 a b c rest ih =>
    simp only [btoaBytes, List.length_cons]
    omega

theorem stripPad_btoaBytes (bs : List ℕ) (hb : ∀ b ∈ bs, b < 256) :
    stripPad (btoaBytes bs) = b64SymsOf bs := by
  induction bs using chunk3_induction with
  | h0 => rfl
  | h1 a =>
    have ha : a < 256 := hb a (by simp)
    show stripPad [b64Char (a / 4), b64Char (a % 4 * 16), '=', '='] = _
    rw [stripPad_cons_ne (b64Char_ne_pad _ (by omega)),
      stripPad_cons_ne (b64Char_ne_pad _ (by omega))]
    rfl
  | h2 a b =>
    have ha : a < 256 := hb a (by simp)
    have hbb : b < 256 := hb b (by simp)
    show stripPad [b64Char (a / 4), b64Char (a % 4 * 16 + b / 16),
      b64Char (b % 16 * 4), '='] = _
    rw [stripPad_cons_ne (b64Char_ne_pad _ (by omega)),
      stripPad_cons_ne (b64Char_ne_pad _ (by omega)),
      stripPad_cons_ne (b64Char_ne_pad _ (by omega))]
    rfl
  | h3 a b c rest ih =>
    have ha : a < 256 := hb a (by simp)
    have hbb : b < 256 := hb b (by simp)
    have hcc : c < 256 := hb c (by simp)
    have hrest : ∀ x ∈ rest, x < 256 := fun x hx => hb x (by simp [hx])
    show stripPad (b64Char (a / 4) :: b64Char (a % 4 * 16 + b / 16)
      :: b64Char (b % 16 * 4 + c / 64) :: b64Char (c % 64) :: btoaBytes rest) = _
    rw [stripPad_cons_ne (b64Char_ne_pad _ (by omega)),
      stripPad_cons_ne (b64Char_ne_pad _ (by omega)),
      stripPad_cons_ne (b64Char_ne_pad _ (by omega)),
      stripPad_cons_ne (b64Char_ne_pad _ (by omega)), ih hrest]
    rfl

theorem b64SymsOf_length_mod4 (bs : List ℕ) : (b64SymsOf bs).length % 4 ≠ 1 := by
  induction bs using chunk3_induction with
  | h0 => simp [b64SymsOf]
  | h1 a => simp [b64SymsOf]
  | h2 a b => simp [b64SymsOf]
  | h3 a b c rest ih =>
    simp only [b64SymsOf, List.length_cons]
    omega

theorem b64Decode_b64SymsOf (bs : List ℕ) (hb : ∀ b ∈ bs, b < 256) :
    (b64IndexAll (b64SymsOf bs)).bind b64DecodeSyms = some bs := by
  induction bs using chunk3_induction with
  | h0 => rfl
  | h1 a =>
    have ha : a < 256 := hb a (by simp)
    show (b64IndexAll [b64Char (a / 4), b64Char (a % 4 * 16)]).bind _ = _
    simp only [b64IndexAll, b64Index_b64Char _ (by omega : a / 4 < 64),
      b64Index_b64Char _ (by omega : a % 4 * 16 < 64), Option.map_some',
      Option.some_bind]
    show b64DecodeSyms [a / 4, a % 4 * 16] = _
    simp only [b64DecodeSyms]
    have harith : a / 4 * 4 + a % 4 * 16 / 16 = a := by omega
    rw [harith]
  | h2 a b =>
    have ha : a < 256 := hb a (by simp)
    have hbb : b < 256 := hb b (by simp)
    show (b64IndexAll [b64Char (a / 4), b64Char (a % 4 * 16 + b / 16),
      b64Char (b % 16 * 4)]).bind _ = _
    simp only [b64IndexAll, b64Index_b64Char _ (by omega : a / 4 < 64),
      b64Index_b64Char _ (by omega : a % 4 * 16 + b / 16 < 64),
      b64Index_b64Char _ (by omega : b % 16 * 4 < 64), Option.map_some',
      Option.some_bind]
    show b64DecodeSyms [a / 4, a % 4 * 16 + b / 16, b % 16 * 4] = _
    simp only [b64DecodeSyms]
    have h1a : a / 4 * 4 + (a % 4 * 16 + b / 16) / 16 = a := by omega
    have h2a : (a % 4 * 16 + b / 16) % 16 * 16 + b % 16 * 4 / 4 = b := by omega
    rw [h1a, h2a]
  | h3 a b c rest ih =>
    have ha : a < 256 := hb a (by simp)
    have hbb : b < 256 := hb b (by simp)
    have hcc : c < 256 := hb c (by simp)
    have hrest : ∀ x ∈ rest, x < 256 := fun x hx => hb x (by simp [hx])
    have ihr := ih hrest
    show (b64IndexAll (b64Char (a / 4) :: b64Char (a % 4 * 16 + b / 16)
      :: b64Char (b % 16 * 4 + c / 64) :: b64Char (c % 64) :: b64SymsOf rest)).bind _ = _
    rcases hsyms : b64IndexAll (b64SymsOf rest) with _ | syms
    · rw [hsyms] at ihr
      simp at ihr
    · rw [hsyms] at ihr
      simp only [Option.some_bind] at ihr
      simp only [b64IndexAll, b64Index_b64Char _ (by omega : a / 4 < 64),
        b64Index_b64Char _ (by omega : a % 4 * 16 + b / 16 < 64),
        b64Index_b64Char _ (by omega : b % 16 * 4 + c / 64 < 64),
        b64Index_b64Char _ (by omega : c % 64 < 64), hsyms, Option.map_some',
        Option.some_bind]
      show b64DecodeSyms (a / 4 :: (a % 4 * 16 + b / 16)
        :: (b % 16 * 4 + c / 64) :: c % 64 :: syms) = _
      simp only [b64DecodeSyms, ihr, Option.map_some']
      have h1a : a / 4 * 4 + (a % 4 * 16 + b / 16) / 16 = a := by omega
      have h2a : (a % 4 * 16 + b / 16) % 16 * 16 + (b % 16 * 4 + c / 64) / 4 = b := by
        omega
      have h3a : (b % 16 * 4 + c / 64) % 4 * 64 + c % 64 = c := by omega
      rw [h1a, h2a, h3a]

/-- `atob(btoa(s)) = s` when every character of `s` is a byte. -/
theorem atob_btoa (s : String) (h : ∀ c ∈ s.data, c.toNat ≤ 255) :
    (btoa s).bind atob = some s := by
  have hall : s.data.all (fun c => c.toNat ≤ 255) = true := by
    rw [List.all_eq_true]
    intro c hc
    simpa using h c hc
  have hbytes : ∀ b ∈ s.data.map Char.toNat, b < 256 := by
    intro b hb
    simp only [List.mem_map] at hb
    obtain ⟨c, hc, rfl⟩ := hb
    have := h c hc
    omega
  rw [btoa, if_pos hall]
  simp only [Option.some_bind]
  have hfil : (String.mk (btoaBytes (s.data.map Char.toNat))).data.filter
      (fun c => ! asciiWs c) = btoaBytes (s.data.map Char.toNat) := by
    apply List.filter_eq_self.2
    intro c hc
    have := btoaBytes_not_ws _ hbytes c hc
    simp [this]
  unfold atob
  dsimp only
  rw [hfil, if_pos (btoaBytes_length_mod4 _), stripPad_btoaBytes _ hbytes,
    if_neg (b64SymsOf_length_mod4 _)]
  rcases hidx : b64IndexAll (b64SymsOf (s.data.map Char.toNat)) with _ | syms
  · exfalso
    have hlem := b64Decode_b64SymsOf _ hbytes
    rw [hidx] at hlem
    simp at hlem
  · have hlem := b64Decode_b64SymsOf _ hbytes
    rw [hidx] at hlem
    simp only [Option.some_bind] at hlem
    simp only [Option.some_bind]
    rw [hlem]
    simp only [Option.map_some']
    have hmap : (s.data.map Char.toNat).map Char.ofNat = s.data := by
      rw [List.map_map]
      have : s.data.map (Char.ofNat ∘ Char.toNat) = s.data.map id := by
        apply List.map_congr_left
        intro c _
        exact Char.ofNat_toNat c
      rw [this, List.map_id]
    rw [hmap]

/-! #### Round trip of decimal number printing and JSON number parsing -/

/-- The big-endian decimal digits behind `natToString`. -/
def digitsBE (n : ℕ) : List ℕ :=
  if n = 0 then [0] else (natDigitsRev n n).reverse

/-- `rest` cannot extend a just-parsed JSON number. -/
def NumBoundary : List Char → Prop
  | [] => True
  | c :: _ => c.isDigit = false ∧ c ≠ '.' ∧ c ≠ 'e' ∧ c ≠ 'E'

theorem natDigitsRev_zero (fuel : ℕ) : natDigitsRev fuel 0 = [] := by
  cases fuel <;> simp [natDigitsRev]

theorem natDigitsRev_succ {fuel n : ℕ} (h : n ≠ 0) :
    natDigitsRev (fuel + 1) n = n % 10 :: natDigitsRev fuel (n / 10) := by
  simp [natDigitsRev, h]

theorem digitsVal_append_digit (xs : List ℕ) (d : ℕ) :
    digitsVal (xs ++ [d]) = 10 * digitsVal xs + d := by
  simp [digitsVal, List.foldl_append]

theorem digitsVal_natDigitsRev : ∀ (fuel n : ℕ), n ≤ fuel →
    digitsVal ((natDigitsRev fuel n).reverse) = n := by
  intro fuel
  induction fuel with
  | zero =>
    intro n h
    simp [Nat.le_zero.1 h, natDigitsRev_zero, digitsVal]
  | succ fuel ih =>
    intro n h
    by_cases h0 : n = 0
    · simp [h0, natDigitsRev_zero, digitsVal]
    · rw [natDigitsRev_succ h0]
      simp only [List.reverse_cons]
      rw [digitsVal_append_digit, ih (n / 10) (by omega)]
      omega

theorem natDigitsRev_digits_lt : ∀ (fuel n : ℕ), ∀ d ∈ natDigitsRev fuel n, d < 10 := by
  intro fuel
  induction fuel with
  | zero => intro n d hd; simp [natDigitsRev] at hd
  | succ fuel ih =>
    intro n d hd
    by_cases h0 : n = 0
    · rw [h0, natDigitsRev_zero] at hd
      simp at hd
    · rw [natDigitsRev_succ h0] at hd
      rcases List.mem_cons.1 hd with rfl | hd
      · omega
      · exact ih _ d hd

theorem natDigitsRev_ne_nil {fuel n : ℕ} (h0 : 0 < n) (h : n ≤ fuel) :
    natDigitsRev fuel n ≠ [] := by
  cases fuel
  · omega
  · rw [natDigitsRev_succ (by omega)]
    simp

theorem natDigitsRev_last_ne_zero : ∀ (fuel n : ℕ), 0 < n → n ≤ fuel →
    (natDigitsRev fuel n).reverse.headD 0 ≠ 0 := by
  intro fuel
  induction fuel with
  | zero => intro n h0 h; omega
  | succ fuel ih =>
    intro n h0 h
    rw [natDigitsRev_succ (by omega)]
    simp only [List.reverse_cons]
    by_cases hq : n / 10 = 0
    · rw [hq, natDigitsRev_zero]
      simp only [List.reverse_nil, List.nil_append, List.headD_cons]
      omega
    · have hrec := ih (n / 10) (by omega) (by omega)
      rcases hrev : (natDigitsRev fuel (n / 10)).reverse with _ | ⟨d, t⟩
      · rw [List.reverse_eq_nil_iff] at hrev
        exact absurd hrev (natDigitsRev_ne_nil (by omega) (by omega))
      · rw [hrev] at hrec
        simp only [List.headD_cons] at hrec
        simp [hrec]

theorem natDigitsRev_length_le : ∀ (fuel n k : ℕ), n < 10 ^ k → n ≤ fuel →
    (natDigitsRev fuel n).length ≤ k := by
  intro fuel
  induction fuel with
  | zero => intro n k _ h; simp [Nat.le_zero.1 h, natDigitsRev_zero]
  | succ fuel ih =>
    intro n k hk h
    by_cases h0 : n = 0
    · simp [h0, natDigitsRev_zero]
    · rw [natDigitsRev_succ h0]
      cases k with
      | zero => simp at hk; omega
      | succ k =>
        simp only [List.length_cons]
        have : n / 10 < 10 ^ k := by
          rw [Nat.div_lt_iff_lt_mul (by norm_num)]
          calc n < 10 ^ (k + 1) := hk
          _ = 10 ^ k * 10 := by rw [pow_succ]
        have := ih (n / 10) k this (by omega)
        omega

theorem digitsVal_digitsBE (n : ℕ) : digitsVal (digitsBE n) = n := by
  by_cases h0 : n = 0
  · simp [h0, digitsBE, digitsVal]
  · rw [digitsBE, if_neg h0, digitsVal_natDigitsRev n n (le_refl n)]

theorem digitsBE_digits_lt (n : ℕ) : ∀ d ∈ digitsBE n, d < 10 := by
  by_cases h0 : n = 0
  · simp [h0, digitsBE]
  · rw [digitsBE, if_neg h0]
    intro d hd
    exact natDigitsRev_digits_lt n n d (List.mem_reverse.1 hd)

theorem digitsBE_ne_nil (n : ℕ) : digitsBE n ≠ [] := by
  by_cases h0 : n = 0
  · simp [h0, digitsBE]
  · rw [digitsBE, if_neg h0]
    simp only [ne_eq, List.reverse_eq_nil_iff]
    exact natDigitsRev_ne_nil (by omega) (le_refl n)

theorem digitsBE_no_leading_zero (n : ℕ) :
    ¬ (1 < (digitsBE n).length ∧ (digitsBE n).headD 0 = 0) := by
  by_cases h0 : n = 0
  · simp [h0, digitsBE]
  · rw [digitsBE, if_neg h0]
    rintro ⟨_, hhead⟩
    exact natDigitsRev_last_ne_zero n n (by omega) (le_refl n) hhead

theorem digitsBE_length_le {n k : ℕ} (hk : 1 ≤ k) (h : n < 10 ^ k) :
    (digitsBE n).length ≤ k := by
  by_cases h0 : n = 0
  · simp [h0, digitsBE]
    omega
  · rw [digitsBE, if_neg h0, List.length_reverse]
    exact natDigitsRev_length_le n n k h (le_refl n)

theorem digitsVal_replicate_zero : ∀ (m : ℕ) (ds : List ℕ),
    digitsVal (List.replicate m 0 ++ ds) = digitsVal ds := by
  intro m
  induction m with
  | zero => intro ds; rfl
  | succ m ih =>
    intro ds
    rw [List.replicate_succ]
    show digitsVal (0 :: (List.replicate m 0 ++ ds)) = _
    rw [show digitsVal (0 :: (List.replicate m 0 ++ ds))
        = (List.replicate m 0 ++ ds).foldl (fun a d => 10 * a + d) (10 * 0 + 0) from rfl]
    simpa [digitsVal] using ih ds

theorem digitChar_toNat : ∀ d < 10, (Char.ofNat (48 + d)).toNat = 48 + d := by decide

theorem digitChar_isDigit : ∀ d < 10, (Char.ofNat (48 + d)).isDigit = true := by decide

theorem digitChar_ne_minus : ∀ d < 10, Char.ofNat (48 + d) ≠ '-' := by decide

theorem natToString_data (n : ℕ) :
    (natToString n).data = (digitsBE n).map fun d => Char.ofNat (48 + d) := by
  by_cases h0 : n = 0
  · simp [h0, natToString, digitsBE, natDigitsRev_zero]
  · rw [natToString, if_neg h0, digitsBE, if_neg h0]
    show ((natDigitsRev n n).reverse.map fun d => Char.ofNat (48 + d)).asString.data = _
    rfl

theorem parseDigits_map_digits : ∀ (ds : List ℕ) (rest : List Char),
    (∀ d ∈ ds, d < 10) →
    (rest = [] ∨ ∃ c t, rest = c :: t ∧ c.isDigit = false) →
    parseDigits ((ds.map fun d => Char.ofNat (48 + d)) ++ rest) = (ds, rest) := by
  intro ds
  induction ds with
  | nil =>
    intro rest _ hrest
    rcases hrest with rfl | ⟨c, t, rfl, hc⟩
    · rfl
    · simp [parseDigits, hc]
  | cons d ds' ih =>
    intro rest hds hrest
    have hd : d < 10 := hds d (by simp)
    have hds' : ∀ x ∈ ds', x < 10 := fun x hx => hds x (by simp [hx])
    simp only [List.map_cons, List.cons_append, parseDigits,
      digitChar_isDigit d hd, if_true, List.append_eq]
    rw [ih rest hds' hrest]
    simp [digitChar_toNat d hd]

theorem parseFrac_boundary {rest : List Char} (h : NumBoundary rest) :
    parseFrac rest = some (0, rest) := by
  rcases rest with _ | ⟨c, t⟩
  · rfl
  · exact if_neg h.2.1

theorem parseExp_boundary {rest : List Char} (h : NumBoundary rest) :
    parseExp rest = some (0, rest) := by
  rcases rest with _ | ⟨c, t⟩
  · rfl
  · refine if_neg ?_
    rintro (rfl | rfl)
    · exact h.2.2.1 rfl
    · exact h.2.2.2 rfl

theorem parseNumNN_natToString (n : ℕ) (rest : List Char) (hstop : NumBoundary rest) :
    parseNumNN ((natToString n).data ++ rest) = some ((n : ℚ), rest) := by
  have hdigits : parseDigits ((natToString n).data ++ rest) = (digitsBE n, rest) := by
    rw [natToString_data]
    apply parseDigits_map_digits _ _ (digitsBE_digits_lt n)
    rcases rest with _ | ⟨c, t⟩
    · exact Or.inl rfl
    · exact Or.inr ⟨c, t, rfl, hstop.1⟩
  obtain ⟨d, t, hdt⟩ : ∃ d t, digitsBE n = d :: t := by
    rcases hbe : digitsBE n with _ | ⟨d, t⟩
    · exact absurd hbe (digitsBE_ne_nil n)
    · exact ⟨d, t, rfl⟩
  have hnl := digitsBE_no_leading_zero n
  rw [hdt] at hdigits hnl
  have hval := digitsVal_digitsBE n
  rw [hdt] at hval
  unfold parseNumNN
  rw [hdigits]
  simp only [if_neg hnl, parseFrac_boundary hstop, Option.some_bind,
    parseExp_boundary hstop, Option.map_some', hval]
  norm_num

theorem parseNum_natToString (n : ℕ) (rest : List Char) (hstop : NumBoundary rest) :
    parseNum ((natToString n).data ++ rest) = some ((n : ℚ), rest) := by
  obtain ⟨d, ds', hdt⟩ : ∃ d ds', digitsBE n = d :: ds' := by
    rcases hbe : digitsBE n with _ | ⟨d, ds'⟩
    · exact absurd hbe (digitsBE_ne_nil n)
    · exact ⟨d, ds', rfl⟩
  have hd : d < 10 := digitsBE_digits_lt n d (by rw [hdt]; simp)
  have hdata : (natToString n).data
      = Char.ofNat (48 + d) :: (ds'.map fun x => Char.ofNat (48 + x)) := by
    rw [natToString_data, hdt, List.map_cons]
  rw [hdata]
  show parseNum (Char.ofNat (48 + d) :: ((ds'.map fun x => Char.ofNat (48 + x)) ++ rest))
      = _
  rw [parseNum, if_neg (digitChar_ne_minus d hd)]
  rw [show Char.ofNat (48 + d) :: ((ds'.map fun x => Char.ofNat (48 + x)) ++ rest)
      = (natToString n).data ++ rest by rw [hdata]; rfl]
  exact parseNumNN_natToString n rest hstop

/-- A JavaScript number whose decimal rendering is exact in the rational
embedding: the reduced denominator divides a power of ten.  UI-produced
values such as slider steps (`0.08`, `1.4`, integers) are of this form; a
double like `10°/360 = 0.02777…` prints as its shortest round-trip decimal,
which the rational embedding cannot reproduce, so such values are outside
this predicate. -/
def DecimalQ (q : ℚ) : Prop := q.den ∣ 10 ^ q.den

theorem fracK_dvd {den : ℕ} (hpos : 0 < den) (h : den ∣ 10 ^ den) :
    den ∣ 10 ^ fracK den := by
  obtain ⟨k0, hfind⟩ : ∃ k0,
      (List.range (den + 1)).find? (fun k => 10 ^ k % den = 0) = some k0 := by
    rw [← Option.isSome_iff_exists, List.find?_isSome]
    refine ⟨den, by simp, ?_⟩
    simp only [decide_eq_true_eq]
    exact Nat.dvd_iff_mod_eq_zero.1 h
  have hp := List.find?_some hfind
  simp only [decide_eq_true_eq] at hp
  rw [fracK, hfind]
  exact Nat.dvd_iff_mod_eq_zero.2 hp

theorem fracK_pos {den : ℕ} (hpos : 0 < den) (hne : den ≠ 1) (h : den ∣ 10 ^ den) :
    1 ≤ fracK den := by
  by_contra h0
  push_neg at h0
  have hz : fracK den = 0 := by omega
  have hdvd := fracK_dvd hpos h
  rw [hz, pow_zero] at hdvd
  exact hne (Nat.dvd_one.1 hdvd)

theorem zeroPad_parse {k v : ℕ} (hk : 1 ≤ k) (hv : v < 10 ^ k) (rest : List Char)
    (hrest : rest = [] ∨ ∃ c t, rest = c :: t ∧ c.isDigit = false) :
    parseDigits ((zeroPad k v).data ++ rest)
      = (List.replicate (k - (digitsBE v).length) 0 ++ digitsBE v, rest)
    ∧ digitsVal (List.replicate (k - (digitsBE v).length) 0 ++ digitsBE v) = v
    ∧ (List.replicate (k - (digitsBE v).length) 0 ++ digitsBE v).length = k := by
  have hlen : (digitsBE v).length ≤ k := digitsBE_length_le hk hv
  have hdata : (zeroPad k v).data
      = ((List.replicate (k - (digitsBE v).length) 0 ++ digitsBE v).map
          fun d => Char.ofNat (48 + d)) := by
    show (List.replicate (k - (natToString v).length) '0' ++ (natToString v).data) = _
    rw [List.map_append, List.map_replicate]
    congr 1
    · congr 1
      show k - (natToString v).data.length = _
      rw [natToString_data, List.length_map]
    · exact natToString_data v
  constructor
  · rw [hdata]
    apply parseDigits_map_digits _ _ ?_ hrest
    intro d hd
    rcases List.mem_append.1 hd with hd | hd
    · have := List.eq_of_mem_replicate hd
      omega
    · exact digitsBE_digits_lt v d hd
  constructor
  · rw [digitsVal_replicate_zero, digitsVal_digitsBE]
  · rw [List.length_append, List.length_replicate]
    omega

theorem parseNumNN_decimal_core (ip fr k : ℕ) (hk : 1 ≤ k) (hfr : fr < 10 ^ k)
    (rest : List Char) (hstop : NumBoundary rest) :
    parseNumNN ((natToString ip).data ++ '.' :: ((zeroPad k fr).data ++ rest))
      = some ((ip : ℚ) + (fr : ℚ) / 10 ^ k, rest) := by
  have hdigits : parseDigits ((natToString ip).data ++ '.' :: ((zeroPad k fr).data ++ rest))
      = (digitsBE ip, '.' :: ((zeroPad k fr).data ++ rest)) := by
    rw [natToString_data]
    exact parseDigits_map_digits _ _ (digitsBE_digits_lt ip)
      (Or.inr ⟨'.', _, rfl, by decide⟩)
  obtain ⟨d, t, hdt⟩ : ∃ d t, digitsBE ip = d :: t := by
    rcases hbe : digitsBE ip with _ | ⟨d, t⟩
    · exact absurd hbe (digitsBE_ne_nil ip)
    · exact ⟨d, t, rfl⟩
  have hnl := digitsBE_no_leading_zero ip
  rw [hdt] at hdigits hnl
  have hval := digitsVal_digitsBE ip
  rw [hdt] at hval
  obtain ⟨hpad, hpadval, hpadlen⟩ := zeroPad_parse hk hfr rest
    (by
      rcases rest with _ | ⟨c, t2⟩
      · exact Or.inl rfl
      · exact Or.inr ⟨c, t2, rfl, hstop.1⟩)
  obtain ⟨e, u, heu⟩ : ∃ e u,
      List.replicate (k - (digitsBE fr).length) 0 ++ digitsBE fr = e :: u := by
    rcases hp : List.replicate (k - (digitsBE fr).length) 0 ++ digitsBE fr with _ | ⟨e, u⟩
    · exfalso
      have := hpadlen
      rw [hp] at this
      simp at this
      omega
    · exact ⟨e, u, rfl⟩
  rw [heu] at hpad hpadval hpadlen
  have hfracstep : parseFrac ('.' :: ((zeroPad k fr).data ++ rest))
      = some ((fr : ℚ) / 10 ^ k, rest) := by
    simp only [parseFrac]
    rw [hpad]
    simp only [hpadval, hpadlen]
    simp
  unfold parseNumNN
  rw [hdigits]
  simp only [if_neg hnl, hfracstep, Option.some_bind, parseExp_boundary hstop,
    Option.map_some', hval]
  norm_num

theorem parseNum_eq_parseNumNN_natToString (n : ℕ) (tail : List Char) :
    parseNum ((natToString n).data ++ tail)
      = parseNumNN ((natToString n).data ++ tail) := by
  obtain ⟨d, ds', hdt⟩ : ∃ d ds', digitsBE n = d :: ds' := by
    rcases hbe : digitsBE n with _ | ⟨d, ds'⟩
    · exact absurd hbe (digitsBE_ne_nil n)
    · exact ⟨d, ds', rfl⟩
  have hd : d < 10 := digitsBE_digits_lt n d (by rw [hdt]; simp)
  have hdata : (natToString n).data
      = Char.ofNat (48 + d) :: (ds'.map fun x => Char.ofNat (48 + x)) := by
    rw [natToString_data, hdt, List.map_cons]
  rw [hdata, List.cons_append, parseNum, if_neg (digitChar_ne_minus d hd)]

theorem parseNum_jsNumToString (q : ℚ) (hdec : DecimalQ q) (rest : List Char)
    (hstop : NumBoundary rest) :
    parseNum ((jsNumToString q).data ++ rest) = some (q, rest) := by
  by_cases hden : q.den = 1
  · rw [jsNumToString, if_pos hden]
    have hnum : ((q.num.natAbs : ℕ) : ℚ) = |q| := by
      rw [Int.cast_natAbs]
      have h2 : ((q.num : ℤ) : ℚ) = q := by
        conv_rhs => rw [← Rat.num_div_den q]
        rw [hden]
        norm_num
      rw [Int.cast_abs, h2]
    by_cases hneg : q.num < 0
    · rw [intToString, if_pos hneg]
      rw [show ("-" ++ natToString q.num.natAbs).data
          = '-' :: (natToString q.num.natAbs).data from rfl]
      rw [List.cons_append, parseNum, if_pos rfl,
        parseNumNN_natToString _ rest hstop]
      simp only [Option.map_some']
      have hq : q < 0 := by
        by_contra hcon
        push_neg at hcon
        have := Rat.num_nonneg.2 hcon
        omega
      rw [hnum, abs_of_neg hq, neg_neg]
    · rw [intToString, if_neg hneg]
      rw [parseNum_eq_parseNumNN_natToString, parseNumNN_natToString _ rest hstop]
      have hq : 0 ≤ q := Rat.num_nonneg.1 (by omega)
      rw [hnum, abs_of_nonneg hq]
  · rw [jsNumToString, if_neg hden]
    have hdata : (ratDecimalString q).data ++ rest
        = (if q < 0 then ['-'] else [])
          ++ ((natToString ((|q|.num.toNat * (10 ^ fracK |q|.den / |q|.den))
                / 10 ^ fracK |q|.den)).data
            ++ '.' :: ((zeroPad (fracK |q|.den)
                ((|q|.num.toNat * (10 ^ fracK |q|.den / |q|.den))
                  % 10 ^ fracK |q|.den)).data ++ rest)) := by
      rw [ratDecimalString]
      by_cases hneg : q < 0 <;>
        simp [hneg, String.data_append, List.append_assoc]
    set k := fracK |q|.den with hkdef
    set N := |q|.num.toNat * (10 ^ k / |q|.den) with hNdef
    have hadnn : (0:ℚ) ≤ |q| := abs_nonneg q
    have haden : |q|.den = q.den := by
      rcases abs_choice q with h | h
      · rw [h]
      · rw [h, Rat.den_neg_eq_den]
    have hdvd : |q|.den ∣ 10 ^ k := by
      rw [hkdef, haden]
      exact fracK_dvd q.pos hdec
    have hk1 : 1 ≤ k := by
      rw [hkdef, haden]
      exact fracK_pos q.pos hden hdec
    have hfrlt : N % 10 ^ k < 10 ^ k := Nat.mod_lt _ (pow_pos (by norm_num) k)
    have hcore := parseNumNN_decimal_core (N / 10 ^ k) (N % 10 ^ k) k hk1 hfrlt rest hstop
    have hNcast : ((N : ℕ) : ℚ) = |q| * 10 ^ k := by
      have h1 : ((|q|.num.toNat : ℕ) : ℚ) = ((|q|.num : ℤ) : ℚ) := by
        exact_mod_cast congrArg (fun z : ℤ => (z : ℚ))
          (Int.toNat_of_nonneg (Rat.num_nonneg.2 hadnn))
      have h2 : (((10 ^ k / |q|.den : ℕ)) : ℚ) = (10 ^ k : ℚ) / (|q|.den : ℚ) := by
        rw [Nat.cast_div hdvd (by exact_mod_cast |q|.pos.ne')]
        push_cast
        ring
      rw [hNdef, Nat.cast_mul, h1, h2]
      rw [show ((|q|.num : ℤ) : ℚ) * ((10 ^ k : ℚ) / ((|q|.den : ℕ) : ℚ))
          = (((|q|.num : ℤ) : ℚ) / ((|q|.den : ℕ) : ℚ)) * (10 ^ k : ℚ) by ring]
      rw [Rat.num_div_den]
    have hpow0 : ((10 : ℚ)) ^ k ≠ 0 := by positivity
    have hval : ((N / 10 ^ k : ℕ) : ℚ) + ((N % 10 ^ k : ℕ) : ℚ) / 10 ^ k = |q| := by
      have hdm := Nat.div_add_mod N (10 ^ k)
      have hcast : ((10 : ℚ)) ^ k * ((N / 10 ^ k : ℕ) : ℚ) + ((N % 10 ^ k : ℕ) : ℚ)
          = (N : ℚ) := by
        have := congrArg (fun x : ℕ => (x : ℚ)) hdm
        push_cast at this
        linarith
      rw [hNcast] at hcast
      field_simp
      linarith
    rw [hdata]
    by_cases hneg : q < 0
    · rw [if_pos hneg, List.singleton_append, parseNum, if_pos rfl, hcore]
      simp only [Option.map_some']
      rw [hval, abs_of_neg hneg, neg_neg]
    · rw [if_neg hneg, List.nil_append, parseNum_eq_parseNumNN_natToString, hcore,
        hval, abs_of_nonneg (not_lt.1 hneg)]

/-! #### Round trip of JSON strings, and the shape of printed values -/

/-- Characters that `JSON.stringify` prints verbatim inside a string and that
are ASCII (all material identifiers and keys qualify). -/
def WfStr (s : List Char) : Prop :=
  ∀ c ∈ s, c ≠ '"' ∧ c ≠ '\\' ∧ 32 ≤ c.toNat ∧ c.toNat < 128

theorem escChar_plain {c : Char} (h1 : c ≠ '"') (h2 : c ≠ '\\')
    (h3 : 32 ≤ c.toNat) : escChar c = [c] := by
  rw [escChar, if_neg h1, if_neg h2,
    if_neg (by rintro rfl; exact absurd h3 (by decide)),
    if_neg (by rintro rfl; exact absurd h3 (by decide)),
    if_neg (by rintro rfl; exact absurd h3 (by decide)),
    if_neg (by rintro rfl; exact absurd h3 (by decide)),
    if_neg (by rintro rfl; exact absurd h3 (by decide)),
    if_neg (by omega)]

theorem escStr_wf {s : List Char} (h : WfStr s) : escStr s = s := by
  induction s with
  | nil => rfl
  | cons c s' ih =>
    obtain ⟨h1, h2, h3, _⟩ := h c (by simp)
    rw [escStr, escChar_plain h1 h2 h3,
      ih fun x hx => h x (by simp [hx])]
    rfl

theorem parseStrBody_cons (c : Char) (tl : List Char) (h1 : c ≠ '"')
    (h2 : c ≠ '\\') (h3 : ¬ c.toNat < 32) :
    parseStrBody (c :: tl) = (parseStrBody tl).map fun p => (c :: p.1, p.2) := by
  rw [parseStrBody.eq_def]
  dsimp only
  rw [if_neg h1, if_neg h2, if_neg h3]

theorem parseStrBody_escStr {s : List Char} (h : WfStr s) (rest : List Char) :
    parseStrBody (escStr s ++ '"' :: rest) = some (s, rest) := by
  induction s with
  | nil =>
    show parseStrBody ('"' :: rest) = _
    rw [parseStrBody.eq_def]
    dsimp only
    rw [if_pos rfl]
  | cons c s' ih =>
    obtain ⟨h1, h2, h3, _⟩ := h c (by simp)
    rw [escStr, escChar_plain h1 h2 h3]
    show parseStrBody (c :: (escStr s' ++ '"' :: rest)) = _
    rw [parseStrBody_cons c _ h1 h2 (by omega),
      ih fun x hx => h x (by simp [hx])]
    rfl

/-! Wellformedness of a JSON tree for the exact-round-trip theorem. -/

mutual
def WfJson : Json → Prop
  | .null => True
  | .bool _ => True
  | .num q => DecimalQ q
  | .str s => WfStr s
  | .arr l => WfList l
  | .obj fl => WfFields fl
def WfList : JsonList → Prop
  | .nil => True
  | .cons e tl => WfJson e ∧ WfList tl
def WfFields : JsonFields → Prop
  | .nil => True
  | .cons k v tl => WfStr k ∧ WfJson v ∧ WfFields tl
end

/-! Fuel bounds for the parser. -/

mutual
def jsonFuel : Json → ℕ
  | .arr l => 1 + listFuel l
  | .obj fl => 1 + fieldsFuel fl
  | _ => 1
def listFuel : JsonList → ℕ
  | .nil => 1
  | .cons e tl => 1 + max (jsonFuel e) (listFuel tl)
def fieldsFuel : JsonFields → ℕ
  | .nil => 1
  | .cons _ v tl => 1 + max (jsonFuel v) (fieldsFuel tl)
end

theorem jsonFuel_pos (j : Json) : 1 ≤ jsonFuel j := by
  cases j <;> simp [jsonFuel]

theorem listFuel_pos (l : JsonList) : 1 ≤ listFuel l := by
  cases l <;> (simp only [listFuel]; omega)

theorem fieldsFuel_pos (fl : JsonFields) : 1 ≤ fieldsFuel fl := by
  cases fl <;> (simp only [fieldsFuel]; omega)

theorem numBoundary_cons {c : Char} (t : List Char) (h1 : c.isDigit = false)
    (h2 : c ≠ '.') (h3 : c ≠ 'e') (h4 : c ≠ 'E') : NumBoundary (c :: t) :=
  ⟨h1, h2, h3, h4⟩

/-- The head class of a printed JSON value. -/
def HeadOk (c : Char) : Prop :=
  c = 'n' ∨ c = 't' ∨ c = 'f' ∨ c = '"' ∨ c = '[' ∨ c = '\x7b' ∨ c = '-'
    ∨ (48 ≤ c.toNat ∧ c.toNat ≤ 57)

theorem natToString_head (n : ℕ) : ∃ d t, d < 10
    ∧ (natToString n).data = Char.ofNat (48 + d) :: t := by
  obtain ⟨d, ds', hdt⟩ : ∃ d ds', digitsBE n = d :: ds' := by
    rcases hbe : digitsBE n with _ | ⟨d, ds'⟩
    · exact absurd hbe (digitsBE_ne_nil n)
    · exact ⟨d, ds', rfl⟩
  refine ⟨d, ds'.map fun x => Char.ofNat (48 + x),
    digitsBE_digits_lt n d (by rw [hdt]; simp), ?_⟩
  rw [natToString_data, hdt, List.map_cons]

theorem jsNumToString_head (q : ℚ) : ∃ c t, (jsNumToString q).data = c :: t
    ∧ (c = '-' ∨ (48 ≤ c.toNat ∧ c.toNat ≤ 57)) := by
  by_cases hden : q.den = 1
  · rw [jsNumToString, if_pos hden, intToString]
    by_cases hneg : q.num < 0
    · rw [if_pos hneg]
      exact ⟨'-', (natToString q.num.natAbs).data, rfl, Or.inl rfl⟩
    · rw [if_neg hneg]
      obtain ⟨d, t, hd, hdt⟩ := natToString_head q.num.natAbs
      exact ⟨Char.ofNat (48 + d), t, hdt,
        Or.inr (by rw [digitChar_toNat d hd]; omega)⟩
  · rw [jsNumToString, if_neg hden, ratDecimalString]
    dsimp only
    by_cases hneg : q < 0
    · rw [if_pos hneg]
      exact ⟨'-', _, rfl, Or.inl rfl⟩
    · rw [if_neg hneg]
      obtain ⟨d, t, hd, hdt⟩ := natToString_head
        (|q|.num.toNat * (10 ^ fracK |q|.den / |q|.den) / 10 ^ fracK |q|.den)
      refine ⟨Char.ofNat (48 + d),
        t ++ '.' :: (zeroPad (fracK |q|.den)
          (|q|.num.toNat * (10 ^ fracK |q|.den / |q|.den) % 10 ^ fracK |q|.den)).data,
        ?_, Or.inr (by rw [digitChar_toNat d hd]; omega)⟩
      show ("" ++ (natToString _ ++ "." ++ zeroPad _ _)).data = _
      rw [String.data_append, String.data_append, String.data_append, hdt]
      simp

theorem printJson_head (j : Json) : ∃ c t, printJson j = c :: t ∧ HeadOk c := by
  cases j with
  | null => exact ⟨'n', _, rfl, Or.inl rfl⟩
  | bool b =>
    cases b
    · exact ⟨'f', _, rfl, Or.inr (Or.inr (Or.inl rfl))⟩
    · exact ⟨'t', _, rfl, Or.inr (Or.inl rfl)⟩
  | num q =>
    obtain ⟨c, t, hct, hc⟩ := jsNumToString_head q
    refine ⟨c, t, ?_, ?_⟩
    · exact hct
    · rcases hc with rfl | hc
      · exact Or.inr (Or.inr (Or.inr (Or.inr (Or.inr (Or.inr (Or.inl rfl))))))
      · exact Or.inr (Or.inr (Or.inr (Or.inr (Or.inr (Or.inr (Or.inr hc))))))
  | str s => exact ⟨'"', _, rfl, Or.inr (Or.inr (Or.inr (Or.inl rfl)))⟩
  | arr l => exact ⟨'[', _, rfl, Or.inr (Or.inr (Or.inr (Or.inr (Or.inl rfl))))⟩
  | obj fl =>
    exact ⟨'\x7b', _, rfl, Or.inr (Or.inr (Or.inr (Or.inr (Or.inr (Or.inl rfl)))))⟩

theorem headOk_not_ws {c : Char} (h : HeadOk c) : jsonWs c = false := by
  rcases h with rfl | rfl | rfl | rfl | rfl | rfl | rfl | ⟨h1, h2⟩
  · decide
  · decide
  · decide
  · decide
  · decide
  · decide
  · decide
  · cases hws : jsonWs c
    · rfl
    · exfalso
      simp only [jsonWs, Bool.or_eq_true, decide_eq_true_eq] at hws
      rcases hws with ((rfl | rfl) | rfl) | rfl <;> revert h1 h2 <;> decide

theorem headOk_ne_rbracket {c : Char} (h : HeadOk c) : c ≠ ']' := by
  rcases h with rfl | rfl | rfl | rfl | rfl | rfl | rfl | ⟨h1, h2⟩
  · decide
  · decide
  · decide
  · decide
  · decide
  · decide
  · decide
  · rintro rfl
    revert h1 h2
    decide

theorem headOk_ne_rbrace {c : Char} (h : HeadOk c) : c ≠ '\x7d' := by
  rcases h with rfl | rfl | rfl | rfl | rfl | rfl | rfl | ⟨h1, h2⟩
  · decide
  · decide
  · decide
  · decide
  · decide
  · decide
  · decide
  · rintro rfl
    revert h1 h2
    decide

theorem skipWs_cons_not_ws {c : Char} {t : List Char} (h : jsonWs c = false) :
    skipWs (c :: t) = c :: t := by
  simp [skipWs, List.dropWhile_cons, h]

theorem numHead_ne {c : Char} (h : c = '-' ∨ (48 ≤ c.toNat ∧ c.toNat ≤ 57)) :
    c ≠ '"' ∧ c ≠ '[' ∧ c ≠ '\x7b' ∧ c ≠ 'n' ∧ c ≠ 't' ∧ c ≠ 'f' := by
  rcases h with rfl | ⟨h1, h2⟩
  · refine ⟨by decide, by decide, by decide, by decide, by decide, by decide⟩
  · refine ⟨?_, ?_, ?_, ?_, ?_, ?_⟩ <;> rintro rfl <;> revert h1 h2 <;> decide

/-! #### One-step equations of the fuel-indexed parser -/

theorem parseVal_quote (fuel : ℕ) (tl : List Char) :
    parseVal (fuel + 1) ('"' :: tl)
      = (parseStrBody tl).map fun p => (Json.str p.1, p.2) := rfl

theorem parseVal_lbracket (fuel : ℕ) (tl : List Char) :
    parseVal (fuel + 1) ('[' :: tl)
      = (if (skipWs tl).head? = some ']' then some (Json.arr .nil, (skipWs tl).tail)
         else (parseItems fuel (skipWs tl)).map fun p => (Json.arr p.1, p.2)) := rfl

theorem parseVal_lbrace (fuel : ℕ) (tl : List Char) :
    parseVal (fuel + 1) ('\x7b' :: tl)
      = (if (skipWs tl).head? = some '\x7d' then some (Json.obj .nil, (skipWs tl).tail)
         else (parseFields fuel (skipWs tl)).map fun p => (Json.obj p.1, p.2)) := rfl

theorem parseVal_nullLit (fuel : ℕ) (r : List Char) :
    parseVal (fuel + 1) ('n' :: 'u' :: 'l' :: 'l' :: r) = some (Json.null, r) := rfl

theorem parseVal_trueLit (fuel : ℕ) (r : List Char) :
    parseVal (fuel + 1) ('t' :: 'r' :: 'u' :: 'e' :: r) = some (Json.bool true, r) := rfl

theorem parseVal_falseLit (fuel : ℕ) (r : List Char) :
    parseVal (fuel + 1) ('f' :: 'a' :: 'l' :: 's' :: 'e' :: r)
      = some (Json.bool false, r) := rfl

theorem parseVal_num (fuel : ℕ) (c : Char) (tl : List Char) (h1 : c ≠ '"')
    (h2 : c ≠ '[') (h3 : c ≠ '\x7b') (h4 : c ≠ 'n') (h5 : c ≠ 't') (h6 : c ≠ 'f') :
    parseVal (fuel + 1) (c :: tl)
      = (parseNum (c :: tl)).map fun p => (Json.num p.1, p.2) := by
  rw [parseVal.eq_def]
  dsimp only
  rw [if_neg h1, if_neg h2, if_neg h3, if_neg h4, if_neg h5, if_neg h6]

theorem parseItems_succ (fuel : ℕ) (cs : List Char) :
    parseItems (fuel + 1) cs
      = (parseVal fuel cs).bind fun p =>
          if (skipWs p.2).head? = some ',' then
            (parseItems fuel (skipWs (skipWs p.2).tail)).map fun q =>
              (JsonList.cons p.1 q.1, q.2)
          else if (skipWs p.2).head? = some ']' then
            some (JsonList.cons p.1 JsonList.nil, (skipWs p.2).tail)
          else none := rfl

theorem parseFields_quote (fuel : ℕ) (rest : List Char) :
    parseFields (fuel + 1) ('"' :: rest)
      = (parseStrBody rest).bind fun pk =>
          if (skipWs pk.2).head? = some ':' then
            (parseVal fuel (skipWs (skipWs pk.2).tail)).bind fun pv =>
              if (skipWs pv.2).head? = some ',' then
                (parseFields fuel (skipWs (skipWs pv.2).tail)).map fun q =>
                  (JsonFields.cons pk.1 pv.1 q.1, q.2)
              else if (skipWs pv.2).head? = some '\x7d' then
                some (JsonFields.cons pk.1 pv.1 JsonFields.nil, (skipWs pv.2).tail)
              else none
          else none := rfl

/-! #### The shape of printed lists and fields -/

theorem printList_single (e : Json) :
    printList (JsonList.cons e JsonList.nil) = printJson e := rfl

theorem printList_cons (e : Json) (tl : JsonList) (h : tl ≠ JsonList.nil) :
    printList (JsonList.cons e tl) = printJson e ++ ',' :: printList tl := by
  cases tl with
  | nil => exact absurd rfl h
  | cons e' tl' => rfl

theorem printFields_single (k : List Char) (v : Json) :
    printFields (JsonFields.cons k v JsonFields.nil)
      = '"' :: (escStr k ++ '"' :: ':' :: printJson v) := rfl

theorem printFields_cons (k : List Char) (v : Json) (tl : JsonFields)
    (h : tl ≠ JsonFields.nil) :
    printFields (JsonFields.cons k v tl)
      = ('"' :: (escStr k ++ '"' :: ':' :: printJson v)) ++ ',' :: printFields tl := by
  cases tl with
  | nil => exact absurd rfl h
  | cons k' v' tl' => rfl

theorem printList_head (e : Json) (tl : JsonList) :
    ∃ c t, printList (JsonList.cons e tl) = c :: t ∧ HeadOk c := by
  obtain ⟨c, t, hct, hc⟩ := printJson_head e
  cases tl with
  | nil => exact ⟨c, t, by rw [printList_single, hct], hc⟩
  | cons e' tl' =>
    exact ⟨c, t ++ ',' :: printList (JsonList.cons e' tl'),
      by rw [printList_cons e _ (fun hcon => JsonList.noConfusion hcon), hct,
        List.cons_append], hc⟩

theorem printFields_head_quote (k : List Char) (v : Json) (tl : JsonFields) :
    ∃ t, printFields (JsonFields.cons k v tl) = '"' :: t := by
  cases tl with
  | nil => exact ⟨_, rfl⟩
  | cons k' v' tl' => exact ⟨_, rfl⟩

/-- Printing then parsing is the identity, at every sufficient fuel: values,
non-empty element lists followed by `]`, and non-empty field lists followed
by the closing brace. -/
theorem parse_print_all (fuel : ℕ) :
    (∀ j rest, WfJson j → jsonFuel j ≤ fuel → NumBoundary rest →
        parseVal fuel (printJson j ++ rest) = some (j, rest))
    ∧ (∀ l rest, WfList l → l ≠ JsonList.nil → listFuel l ≤ fuel →
        parseItems fuel (printList l ++ ']' :: rest) = some (l, rest))
    ∧ (∀ fl rest, WfFields fl → fl ≠ JsonFields.nil → fieldsFuel fl ≤ fuel →
        parseFields fuel (printFields fl ++ '\x7d' :: rest) = some (fl, rest)) := by
  induction fuel with
  | zero =>
    refine ⟨fun j rest _ hf _ => absurd hf (by have := jsonFuel_pos j; omega),
      fun l rest _ _ hf => absurd hf (by have := listFuel_pos l; omega),
      fun fl rest _ _ hf => absurd hf (by have := fieldsFuel_pos fl; omega)⟩
  | succ fuel ih =>
    obtain ⟨ihV, ihI, ihF⟩ := ih
    refine ⟨?_, ?_, ?_⟩
    · intro j rest hwf hfuel hnb
      cases j with
      | null =>
        show parseVal (fuel + 1) ('n' :: 'u' :: 'l' :: 'l' :: rest) = some (Json.null, rest)
        exact parseVal_nullLit fuel rest
      | bool b =>
        cases b with
        | true =>
          show parseVal (fuel + 1) ('t' :: 'r' :: 'u' :: 'e' :: rest)
            = some (Json.bool true, rest)
          exact parseVal_trueLit fuel rest
        | false =>
          show parseVal (fuel + 1) ('f' :: 'a' :: 'l' :: 's' :: 'e' :: rest)
            = some (Json.bool false, rest)
          exact parseVal_falseLit fuel rest
      | num q =>
        have hdec : DecimalQ q := hwf
        obtain ⟨c, t, hct, hc⟩ := jsNumToString_head q
        have hne := numHead_ne hc
        have hpr : printJson (Json.num q) ++ rest = c :: (t ++ rest) := by
          show (jsNumToString q).data ++ rest = _
          rw [hct, List.cons_append]
        rw [hpr, parseVal_num fuel c (t ++ rest) hne.1 hne.2.1 hne.2.2.1 hne.2.2.2.1
          hne.2.2.2.2.1 hne.2.2.2.2.2]
        rw [show c :: (t ++ rest) = (jsNumToString q).data ++ rest by
          rw [hct, List.cons_append]]
        rw [parseNum_jsNumToString q hdec rest hnb]
        rfl
      | str s =>
        have hws : WfStr s := hwf
        have hpr : printJson (Json.str s) ++ rest = '"' :: (escStr s ++ '"' :: rest) := by
          show ('"' :: (escStr s ++ ['"'])) ++ rest = _
          simp
        rw [hpr, parseVal_quote, parseStrBody_escStr hws rest]
        rfl
      | arr l =>
        have hwl : WfList l := hwf
        have hpr : printJson (Json.arr l) ++ rest = '[' :: (printList l ++ ']' :: rest) := by
          show ('[' :: (printList l ++ [']'])) ++ rest = _
          simp
        rw [hpr, parseVal_lbracket]
        cases l with
        | nil =>
          rw [show printList JsonList.nil = ([] : List Char) from rfl, List.nil_append,
            skipWs_cons_not_ws (by decide : jsonWs ']' = false), List.head?_cons,
            if_pos rfl]
          rfl
        | cons e tl =>
          obtain ⟨c, t, hct, hc⟩ := printList_head e tl
          have hskip : skipWs (printList (JsonList.cons e tl) ++ ']' :: rest)
              = printList (JsonList.cons e tl) ++ ']' :: rest := by
            rw [hct, List.cons_append]
            exact skipWs_cons_not_ws (headOk_not_ws hc)
          have hhead : (printList (JsonList.cons e tl) ++ ']' :: rest).head? = some c := by
            rw [hct, List.cons_append, List.head?_cons]
          rw [hskip, hhead,
            if_neg (fun hcon => headOk_ne_rbracket hc (Option.some.inj hcon))]
          have hfl : listFuel (JsonList.cons e tl) ≤ fuel := by
            have hf2 : 1 + listFuel (JsonList.cons e tl) ≤ fuel + 1 := hfuel
            omega
          rw [ihI (JsonList.cons e tl) rest hwl (fun hcon => JsonList.noConfusion hcon) hfl]
          rfl
      | obj fl =>
        have hwl : WfFields fl := hwf
        have hpr : printJson (Json.obj fl) ++ rest
            = '\x7b' :: (printFields fl ++ '\x7d' :: rest) := by
          show ('\x7b' :: (printFields fl ++ ['\x7d'])) ++ rest = _
          simp
        rw [hpr, parseVal_lbrace]
        cases fl with
        | nil =>
          rw [show printFields JsonFields.nil = ([] : List Char) from rfl, List.nil_append,
            skipWs_cons_not_ws (by decide : jsonWs '\x7d' = false), List.head?_cons,
            if_pos rfl]
          rfl
        | cons k v tl =>
          obtain ⟨t, hct⟩ := printFields_head_quote k v tl
          have hskip : skipWs (printFields (JsonFields.cons k v tl) ++ '\x7d' :: rest)
              = printFields (JsonFields.cons k v tl) ++ '\x7d' :: rest := by
            rw [hct, List.cons_append]
            exact skipWs_cons_not_ws (by decide)
          have hhead : (printFields (JsonFields.cons k v tl) ++ '\x7d' :: rest).head?
              = some '"' := by
            rw [hct, List.cons_append, List.head?_cons]
          rw [hskip, hhead, if_neg (by decide : ¬ (some '"' = some '\x7d'))]
          have hfl : fieldsFuel (JsonFields.cons k v tl) ≤ fuel := by
            have hf2 : 1 + fieldsFuel (JsonFields.cons k v tl) ≤ fuel + 1 := hfuel
            omega
          rw [ihF (JsonFields.cons k v tl) rest hwl
            (fun hcon => JsonFields.noConfusion hcon) hfl]
          rfl
    · intro l rest hwf hne hfuel
      cases l with
      | nil => exact absurd rfl hne
      | cons e tl =>
        have hw2 : WfJson e ∧ WfList tl := hwf
        have hf2 : 1 + max (jsonFuel e) (listFuel tl) ≤ fuel + 1 := hfuel
        rw [parseItems_succ]
        cases tl with
        | nil =>
          rw [printList_single]
          rw [ihV e (']' :: rest) hw2.1 (by omega)
            (numBoundary_cons rest (by decide) (by decide) (by decide) (by decide))]
          simp only [Option.some_bind]
          rw [skipWs_cons_not_ws (by decide : jsonWs ']' = false), List.head?_cons,
            if_neg (by decide : ¬ (some ']' = some ',')), if_pos rfl]
          rfl
        | cons e' tl' =>
          rw [printList_cons e (JsonList.cons e' tl') (fun hcon => JsonList.noConfusion hcon),
            List.append_assoc, List.cons_append]
          rw [ihV e (',' :: (printList (JsonList.cons e' tl') ++ ']' :: rest)) hw2.1
            (by omega)
            (numBoundary_cons _ (by decide) (by decide) (by decide) (by decide))]
          simp only [Option.some_bind]
          rw [skipWs_cons_not_ws (by decide : jsonWs ',' = false), List.head?_cons,
            if_pos rfl, List.tail_cons]
          obtain ⟨c, t, hct, hc⟩ := printList_head e' tl'
          have hskip : skipWs (printList (JsonList.cons e' tl') ++ ']' :: rest)
              = printList (JsonList.cons e' tl') ++ ']' :: rest := by
            rw [hct, List.cons_append]
            exact skipWs_cons_not_ws (headOk_not_ws hc)
          rw [hskip, ihI (JsonList.cons e' tl') rest hw2.2
            (fun hcon => JsonList.noConfusion hcon) (by omega)]
          rfl
    · intro fl rest hwf hne hfuel
      cases fl with
      | nil => exact absurd rfl hne
      | cons k v tl =>
        have hw2 : WfStr k ∧ WfJson v ∧ WfFields tl := hwf
        have hf2 : 1 + max (jsonFuel v) (fieldsFuel tl) ≤ fuel + 1 := hfuel
        cases tl with
        | nil =>
          have hpr : printFields (JsonFields.cons k v JsonFields.nil) ++ '\x7d' :: rest
              = '"' :: (escStr k ++ '"' :: ':' :: (printJson v ++ '\x7d' :: rest)) := by
            rw [printFields_single]
            simp
          rw [hpr, parseFields_quote,
            parseStrBody_escStr hw2.1 (':' :: (printJson v ++ '\x7d' :: rest))]
          simp only [Option.some_bind]
          rw [skipWs_cons_not_ws (by decide : jsonWs ':' = false), List.head?_cons,
            if_pos rfl, List.tail_cons]
          obtain ⟨c, t, hct, hc⟩ := printJson_head v
          have hskip : skipWs (printJson v ++ '\x7d' :: rest)
              = printJson v ++ '\x7d' :: rest := by
            rw [hct, List.cons_append]
            exact skipWs_cons_not_ws (headOk_not_ws hc)
          rw [hskip, ihV v ('\x7d' :: rest) hw2.2.1 (by omega)
            (numBoundary_cons rest (by decide) (by decide) (by decide) (by decide))]
          simp only [Option.some_bind]
          rw [skipWs_cons_not_ws (by decide : jsonWs '\x7d' = false), List.head?_cons,
            if_neg (by decide : ¬ (some '\x7d' = some ',')), if_pos rfl]
          rfl
        | cons k' v' tl' =>
          have hpr : printFields (JsonFields.cons k v (JsonFields.cons k' v' tl'))
                ++ '\x7d' :: rest
              = '"' :: (escStr k ++ '"' :: ':' :: (printJson v
                  ++ ',' :: (printFields (JsonFields.cons k' v' tl') ++ '\x7d' :: rest))) := by
            rw [printFields_cons k v _ (fun hcon => JsonFields.noConfusion hcon)]
            simp
          rw [hpr, parseFields_quote, parseStrBody_escStr hw2.1 _]
          simp only [Option.some_bind]
          rw [skipWs_cons_not_ws (by decide : jsonWs ':' = false), List.head?_cons,
            if_pos rfl, List.tail_cons]
          obtain ⟨c, t, hct, hc⟩ := printJson_head v
          have hskip : skipWs (printJson v
                ++ ',' :: (printFields (JsonFields.cons k' v' tl') ++ '\x7d' :: rest))
              = printJson v
                ++ ',' :: (printFields (JsonFields.cons k' v' tl') ++ '\x7d' :: rest) := by
            rw [hct, List.cons_append]
            exact skipWs_cons_not_ws (headOk_not_ws hc)
          rw [hskip, ihV v _ hw2.2.1 (by omega)
            (numBoundary_cons _ (by decide) (by decide) (by decide) (by decide))]
          simp only [Option.some_bind]
          rw [skipWs_cons_not_ws (by decide : jsonWs ',' = false), List.head?_cons,
            if_pos rfl, List.tail_cons]
          obtain ⟨t2, hct2⟩ := printFields_head_quote k' v' tl'
          have hskip2 : skipWs (printFields (JsonFields.cons k' v' tl') ++ '\x7d' :: rest)
              = printFields (JsonFields.cons k' v' tl') ++ '\x7d' :: rest := by
            rw [hct2, List.cons_append]
            exact skipWs_cons_not_ws (by decide)
          rw [hskip2, ihF (JsonFields.cons k' v' tl') rest hw2.2.2
            (fun hcon => JsonFields.noConfusion hcon) (by omega)]
          rfl

/-! #### The printed length bounds the fuel the parser needs -/

theorem printJson_length_pos (j : Json) : 1 ≤ (printJson j).length := by
  obtain ⟨c, t, hct, _⟩ := printJson_head j
  rw [hct]
  simp

mutual
theorem jsonFuel_le_length : ∀ j : Json, jsonFuel j ≤ (printJson j).length
  | .null => by decide
  | .bool true => by decide
  | .bool false => by decide
  | .num q => by
      obtain ⟨c, t, hct, _⟩ := jsNumToString_head q
      show 1 ≤ ((jsNumToString q).data).length
      rw [hct]
      simp
  | .str s => by
      show 1 ≤ ('"' :: (escStr s ++ ['"'])).length
      simp
  | .arr l => by
      have h := listFuel_le_length l
      show 1 + listFuel l ≤ ('[' :: (printList l ++ [']'])).length
      simp only [List.length_cons, List.length_append, List.length_nil]
      omega
  | .obj fl => by
      have h := fieldsFuel_le_length fl
      show 1 + fieldsFuel fl ≤ ('\x7b' :: (printFields fl ++ ['\x7d'])).length
      simp only [List.length_cons, List.length_append, List.length_nil]
      omega
theorem listFuel_le_length : ∀ l : JsonList, listFuel l ≤ (printList l).length + 1
  | .nil => by decide
  | .cons e .nil => by
      have h := jsonFuel_le_length e
      have hp := printJson_length_pos e
      have h1 : listFuel JsonList.nil = 1 := rfl
      show 1 + max (jsonFuel e) (listFuel JsonList.nil) ≤ (printJson e).length + 1
      omega
  | .cons e (.cons e' tl') => by
      have h := jsonFuel_le_length e
      have h2 := listFuel_le_length (JsonList.cons e' tl')
      have hp := printJson_length_pos e
      show 1 + max (jsonFuel e) (listFuel (JsonList.cons e' tl'))
        ≤ (printJson e ++ ',' :: printList (JsonList.cons e' tl')).length + 1
      simp only [List.length_append, List.length_cons]
      omega
theorem fieldsFuel_le_length : ∀ fl : JsonFields, fieldsFuel fl ≤ (printFields fl).length + 1
  | .nil => by decide
  | .cons k v .nil => by
      have h := jsonFuel_le_length v
      have h1 : fieldsFuel JsonFields.nil = 1 := rfl
      show 1 + max (jsonFuel v) (fieldsFuel JsonFields.nil)
        ≤ ('"' :: (escStr k ++ '"' :: ':' :: printJson v)).length + 1
      simp only [List.length_cons, List.length_append]
      omega
  | .cons k v (.cons k' v' tl') => by
      have h := jsonFuel_le_length v
      have h2 := fieldsFuel_le_length (JsonFields.cons k' v' tl')
      show 1 + max (jsonFuel v) (fieldsFuel (JsonFields.cons k' v' tl'))
        ≤ (('"' :: (escStr k ++ '"' :: ':' :: printJson v))
            ++ ',' :: printFields (JsonFields.cons k' v' tl')).length + 1
      simp only [List.length_cons, List.length_append]
      omega
end

/-- `JSON.parse(JSON.stringify(j)) = j` for a wellformed tree. -/
theorem jsonParse_printJson (j : Json) (h : WfJson j) :
    jsonParse ⟨printJson j⟩ = some j := by
  obtain ⟨c, t, hct, hc⟩ := printJson_head j
  have hskip : skipWs (printJson j) = printJson j := by
    rw [hct]
    exact skipWs_cons_not_ws (headOk_not_ws hc)
  have hfuel : jsonFuel j ≤ (printJson j).length + 1 :=
    le_trans (jsonFuel_le_length j) (Nat.le_succ _)
  have hparse := (parse_print_all ((printJson j).length + 1)).1 j [] h hfuel trivial
  rw [List.append_nil] at hparse
  show (match parseVal ((printJson j).length + 1) (skipWs (printJson j)) with
    | some p => if skipWs p.2 = [] then some p.1 else none
    | none => none) = some j
  rw [hskip, hparse]
  rfl

/-! #### Every printed character of a wellformed tree is ASCII -/

theorem digitChar_ascii {d : ℕ} (hd : d < 10) : (Char.ofNat (48 + d)).toNat < 128 := by
  rw [digitChar_toNat d hd]
  omega

theorem natToString_ascii (n : ℕ) : ∀ c ∈ (natToString n).data, c.toNat < 128 := by
  intro c hc
  rw [natToString_data] at hc
  simp only [List.mem_map] at hc
  obtain ⟨d, hd, rfl⟩ := hc
  exact digitChar_ascii (digitsBE_digits_lt n d hd)

theorem intToString_ascii (n : ℤ) : ∀ c ∈ (intToString n).data, c.toNat < 128 := by
  intro c hc
  rw [intToString] at hc
  by_cases hneg : n < 0
  · rw [if_pos hneg] at hc
    rw [show ("-" ++ natToString n.natAbs).data
        = '-' :: (natToString n.natAbs).data from rfl] at hc
    rcases List.mem_cons.1 hc with rfl | hc
    · decide
    · exact natToString_ascii _ c hc
  · rw [if_neg hneg] at hc
    exact natToString_ascii _ c hc

theorem zeroPad_ascii (k v : ℕ) : ∀ c ∈ (zeroPad k v).data, c.toNat < 128 := by
  intro c hc
  have hdata : (zeroPad k v).data
      = List.replicate (k - (natToString v).length) '0' ++ (natToString v).data := by
    show (String.mk _ ++ _).data = _
    rw [String.data_append]
  rw [hdata] at hc
  rcases List.mem_append.1 hc with hc | hc
  · rw [List.eq_of_mem_replicate hc]
    decide
  · exact natToString_ascii _ c hc

theorem ratDecimalString_ascii (q : ℚ) : ∀ c ∈ (ratDecimalString q).data, c.toNat < 128 := by
  intro c hc
  have hdata : (ratDecimalString q).data
      = (if q < 0 then ['-'] else [])
        ++ ((natToString ((|q|.num.toNat * (10 ^ fracK |q|.den / |q|.den))
              / 10 ^ fracK |q|.den)).data
          ++ '.' :: (zeroPad (fracK |q|.den)
              ((|q|.num.toNat * (10 ^ fracK |q|.den / |q|.den))
                % 10 ^ fracK |q|.den)).data) := by
    rw [ratDecimalString]
    by_cases hneg : q < 0 <;> simp [hneg, String.data_append]
  rw [hdata] at hc
  rcases List.mem_append.1 hc with hm | hm
  · by_cases hneg : q < 0
    · rw [if_pos hneg] at hm
      rcases List.mem_singleton.1 hm with rfl
      decide
    · rw [if_neg hneg] at hm
      simp at hm
  · rcases List.mem_append.1 hm with hm | hm
    · exact natToString_ascii _ c hm
    · rcases List.mem_cons.1 hm with rfl | hm
      · decide
      · exact zeroPad_ascii _ _ c hm

theorem jsNumToString_ascii (q : ℚ) : ∀ c ∈ (jsNumToString q).data, c.toNat < 128 := by
  rw [jsNumToString]
  by_cases hden : q.den = 1
  · rw [if_pos hden]
    exact intToString_ascii _
  · rw [if_neg hden]
    exact ratDecimalString_ascii _

mutual
theorem printJson_ascii : ∀ j : Json, WfJson j → ∀ c ∈ printJson j, c.toNat < 128
  | .null => by
      intro _
      decide
  | .bool true => by
      intro _
      decide
  | .bool false => by
      intro _
      decide
  | .num q => by
      intro _ c hc
      exact jsNumToString_ascii q c hc
  | .str s => by
      intro h c hc
      have hws : WfStr s := h
      have hc2 : c ∈ '"' :: (escStr s ++ ['"']) := hc
      rw [escStr_wf hws] at hc2
      rcases List.mem_cons.1 hc2 with rfl | hc2
      · decide
      rcases List.mem_append.1 hc2 with hm | hm
      · exact (hws c hm).2.2.2
      · rcases List.mem_singleton.1 hm with rfl
        decide
  | .arr l => by
      intro h c hc
      have hwl : WfList l := h
      have hc2 : c ∈ '[' :: (printList l ++ [']']) := hc
      rcases List.mem_cons.1 hc2 with rfl | hc2
      · decide
      rcases List.mem_append.1 hc2 with hm | hm
      · exact printList_ascii l hwl c hm
      · rcases List.mem_singleton.1 hm with rfl
        decide
  | .obj fl => by
      intro h c hc
      have hwl : WfFields fl := h
      have hc2 : c ∈ '\x7b' :: (printFields fl ++ ['\x7d']) := hc
      rcases List.mem_cons.1 hc2 with rfl | hc2
      · decide
      rcases List.mem_append.1 hc2 with hm | hm
      · exact printFields_ascii fl hwl c hm
      · rcases List.mem_singleton.1 hm with rfl
        decide
theorem printList_ascii : ∀ l : JsonList, WfList l → ∀ c ∈ printList l, c.toNat < 128
  | .nil => by
      intro _ c hc
      have hc2 : c ∈ ([] : List Char) := hc
      simp at hc2
  | .cons e .nil => by
      intro h c hc
      have h2 : WfJson e ∧ True := h
      have hc2 : c ∈ printJson e := hc
      exact printJson_ascii e h2.1 c hc2
  | .cons e (.cons e' tl') => by
      intro h c hc
      have h2 : WfJson e ∧ WfList (JsonList.cons e' tl') := h
      have hc2 : c ∈ printJson e ++ ',' :: printList (JsonList.cons e' tl') := hc
      rcases List.mem_append.1 hc2 with hm | hm
      · exact printJson_ascii e h2.1 c hm
      · rcases List.mem_cons.1 hm with rfl | hm
        · decide
        · exact printList_ascii (JsonList.cons e' tl') h2.2 c hm
theorem printFields_ascii :
    ∀ fl : JsonFields, WfFields fl → ∀ c ∈ printFields fl, c.toNat < 128
  | .nil => by
      intro _ c hc
      have hc2 : c ∈ ([] : List Char) := hc
      simp at hc2
  | .cons k v .nil => by
      intro h c hc
      have h2 : WfStr k ∧ WfJson v ∧ True := h
      have hc2 : c ∈ '"' :: (escStr k ++ '"' :: ':' :: printJson v) := hc
      rw [escStr_wf h2.1] at hc2
      rcases List.mem_cons.1 hc2 with rfl | hc2
      · decide
      rcases List.mem_append.1 hc2 with hm | hm
      · exact (h2.1 c hm).2.2.2
      rcases List.mem_cons.1 hm with rfl | hm
      · decide
      rcases List.mem_cons.1 hm with rfl | hm
      · decide
      exact printJson_ascii v h2.2.1 c hm
  | .cons k v (.cons k' v' tl') => by
      intro h c hc
      have h2 : WfStr k ∧ WfJson v ∧ WfFields (JsonFields.cons k' v' tl') := h
      have hc2 : c ∈ ('"' :: (escStr k ++ '"' :: ':' :: printJson v))
          ++ ',' :: printFields (JsonFields.cons k' v' tl') := hc
      rcases List.mem_append.1 hc2 with hm | hm
      · rw [escStr_wf h2.1] at hm
        rcases List.mem_cons.1 hm with rfl | hm
        · decide
        rcases List.mem_append.1 hm with hm2 | hm2
        · exact (h2.1 c hm2).2.2.2
        rcases List.mem_cons.1 hm2 with rfl | hm2
        · decide
        rcases List.mem_cons.1 hm2 with rfl | hm2
        · decide
        exact printJson_ascii v h2.2.1 c hm2
      · rcases List.mem_cons.1 hm with rfl | hm
        · decide
        · exact printFields_ascii (JsonFields.cons k' v' tl') h2.2.2 c hm
end

/-! #### The percent-encoded and base64 legs stay ASCII -/

theorem hexDigitUpper_ascii : ∀ n < 16, (hexDigitUpper n).toNat < 128 := by decide

theorem pctByte_ascii (b : ℕ) (hb : b < 256) : ∀ c ∈ pctByte b, c.toNat < 128 := by
  intro c hc
  simp only [pctByte, List.mem_cons, List.not_mem_nil, or_false] at hc
  rcases hc with rfl | rfl | rfl
  · decide
  · exact hexDigitUpper_ascii _ (by omega)
  · exact hexDigitUpper_ascii _ (by omega)

theorem pctEncList_ascii : ∀ cs : List Char, (∀ c ∈ cs, c.toNat < 128) →
    ∀ c ∈ pctEncList cs, c.toNat < 128
  | [], _ => by
      intro c hc
      simp [pctEncList] at hc
  | c0 :: rest, h => by
      intro c hc
      rw [pctEncList] at hc
      rcases List.mem_append.1 hc with hc | hc
      · by_cases hu : uriUnreserved c0
        · rw [if_pos hu] at hc
          rcases List.mem_singleton.1 hc with rfl
          exact h c (by simp)
        · rw [if_neg hu, utf8Bytes_ascii (h c0 (by simp))] at hc
          have hpb : pctBytes [c0.toNat] = pctByte c0.toNat ++ pctBytes [] := rfl
          rw [hpb, show pctBytes [] = [] from rfl, List.append_nil] at hc
          exact pctByte_ascii c0.toNat (by have := h c0 (by simp); omega) c hc
      · exact pctEncList_ascii rest (fun x hx => h x (by simp [hx])) c hc

theorem btoaBytes_ascii (bs : List ℕ) :
    (∀ b ∈ bs, b < 256) → ∀ c ∈ btoaBytes bs, c.toNat < 128 := by
  induction bs using chunk3_induction with
  | h0 =>
    intro _ c hc
    simp [btoaBytes] at hc
  | h1 a =>
    intro hb c hc
    have ha : a < 256 := hb a (by simp)
    simp only [btoaBytes, List.mem_cons, List.not_mem_nil, or_false] at hc
    rcases hc with rfl | rfl | rfl | rfl
    · exact b64Char_ascii _ (by omega)
    · exact b64Char_ascii _ (by omega)
    · decide
    · decide
  | h2 a b =>
    intro hb c hc
    have ha : a < 256 := hb a (by simp)
    have hb2 : b < 256 := hb b (by simp)
    simp only [btoaBytes, List.mem_cons, List.not_mem_nil, or_false] at hc
    rcases hc with rfl | rfl | rfl | rfl
    · exact b64Char_ascii _ (by omega)
    · exact b64Char_ascii _ (by omega)
    · exact b64Char_ascii _ (by omega)
    · decide
  | h3 a b c rest ih =>
    intro hb x hx
    have ha : a < 256 := hb a (by simp)
    have hb2 : b < 256 := hb b (by simp)
    have hc2 : c < 256 := hb c (by simp)
    simp only [btoaBytes, List.mem_cons] at hx
    rcases hx with rfl | rfl | rfl | rfl | hx
    · exact b64Char_ascii _ (by omega)
    · exact b64Char_ascii _ (by omega)
    · exact b64Char_ascii _ (by omega)
    · exact b64Char_ascii _ (by omega)
    · exact ih (fun y hy => hb y (by simp [hy])) x hx

/-! #### Wellformedness of the recipe tree -/

/-- Every numeric parameter of the operation has a terminating decimal
expansion (true of every value the UI inputs can produce). -/
def opDecimal : Operation → Prop
  | .addSheets _ count => DecimalQ count
  | .twist turns => DecimalQ turns
  | .ladder spacing depth => DecimalQ spacing ∧ DecimalQ depth
  | .raindrops radius spacing => DecimalQ radius ∧ DecimalQ spacing
  | .wfolds folds => DecimalQ folds
  | .fold times => DecimalQ times
  | .stretch factor => DecimalQ factor

instance decidableDecimalQ (q : ℚ) : Decidable (DecimalQ q) :=
  inferInstanceAs (Decidable (q.den ∣ 10 ^ q.den))

instance decidableOpDecimal : ∀ op : Operation, Decidable (opDecimal op)
  | .addSheets _ c => inferInstanceAs (Decidable (DecimalQ c))
  | .twist t => inferInstanceAs (Decidable (DecimalQ t))
  | .ladder s d => inferInstanceAs (Decidable (DecimalQ s ∧ DecimalQ d))
  | .raindrops r s => inferInstanceAs (Decidable (DecimalQ r ∧ DecimalQ s))
  | .wfolds f => inferInstanceAs (Decidable (DecimalQ f))
  | .fold t => inferInstanceAs (Decidable (DecimalQ t))
  | .stretch f => inferInstanceAs (Decidable (DecimalQ f))

instance decidableWfStr (s : List Char) : Decidable (WfStr s) :=
  inferInstanceAs (Decidable (∀ c ∈ s, c ≠ '"' ∧ c ≠ '\\' ∧ 32 ≤ c.toNat ∧ c.toNat < 128))

theorem wfJson_jstr (s : String) (h : WfStr s.data) : WfJson (jstr s) := h

theorem wfStr_idString (mt : Material) : WfStr (idString mt).data := by
  cases mt <;> decide

theorem wfJson_opJson (op : Operation) (h : opDecimal op) : WfJson (opJson op) := by
  cases op with
  | addSheets material count =>
    have h2 : DecimalQ count := h
    exact ⟨by decide, wfJson_jstr _ (by decide), by decide, wfStr_idString material,
      by decide, h2, True.intro⟩
  | twist turns =>
    have h2 : DecimalQ turns := h
    exact ⟨by decide, wfJson_jstr _ (by decide), by decide, h2, True.intro⟩
  | ladder spacing depth =>
    have h2 : DecimalQ spacing ∧ DecimalQ depth := h
    exact ⟨by decide, wfJson_jstr _ (by decide), by decide, h2.1, by decide, h2.2, True.intro⟩
  | raindrops radius spacing =>
    have h2 : DecimalQ radius ∧ DecimalQ spacing := h
    exact ⟨by decide, wfJson_jstr _ (by decide), by decide, h2.1, by decide, h2.2, True.intro⟩
  | wfolds folds =>
    have h2 : DecimalQ folds := h
    exact ⟨by decide, wfJson_jstr _ (by decide), by decide, h2, True.intro⟩
  | fold times =>
    have h2 : DecimalQ times := h
    exact ⟨by decide, wfJson_jstr _ (by decide), by decide, h2, True.intro⟩
  | stretch factor =>
    have h2 : DecimalQ factor := h
    exact ⟨by decide, wfJson_jstr _ (by decide), by decide, h2, True.intro⟩

theorem wfList_layers : ∀ ls : List Material,
    WfList (jarrOf (ls.map fun mt => Json.str (idString mt).data))
  | [] => True.intro
  | mt :: t => ⟨wfStr_idString mt, wfList_layers t⟩

theorem wfList_ops : ∀ os : List Operation, (∀ op ∈ os, opDecimal op) →
    WfList (jarrOf (os.map opJson))
  | [], _ => True.intro
  | op :: t, h =>
      ⟨wfJson_opJson op (h op (by simp)), wfList_ops t fun o ho => h o (by simp [ho])⟩

theorem wfJson_toJson (r : Recipe) (h : ∀ op ∈ r.ops, opDecimal op) :
    WfJson (toJson r) :=
  ⟨by decide, wfList_layers r.layers, by decide, wfList_ops r.ops h, True.intro⟩


/-- Counterexample to C7 as stated: for the empty recipe (layers `[]`, ops
`[]`, well inside the 0–5000/0–50 bounds) `encode` succeeds, but the literal
composition `decode (encode r)` fails: the token still carries the
percent-escaped base64 padding `%3D%3D`, and `atob` rejects `%`.  So
`decode(encode(recipe))` is not the recipe. -/
theorem C7_roundtrip_counterexample :
    (encode (toJson ⟨[], []⟩)).isSome = true
    ∧ (encode (toJson ⟨[], []⟩)).bind decode = none := by
  refine ⟨by decide, ?_⟩
  have h : ((encode (toJson ⟨[], []⟩)).bind decode).isNone = true := by decide
  exact Option.isNone_iff_eq_none.1 h

/-- C7 (amended): the token produced by `encode` reaches `decode` only after
the URL layer's percent-decoding (`URLSearchParams.get`), and with that
`decodeURIComponent` step inserted the round trip is exact: for every recipe
within the UI bounds (at most 5000 layers, at most 50 operations) whose
numeric parameters have terminating decimal expansions,
`decode (decodeURIComponent (encode recipe)) = some recipe`'s JSON tree. -/
theorem C7_roundtrip_amended (r : Recipe)
    (hlay : r.layers.length ≤ 5000) (hops : r.ops.length ≤ 50)
    (hdec : ∀ op ∈ r.ops, opDecimal op) :
    (encode (toJson r)).bind (fun tok => (decodeURIComponent tok).bind decode)
      = some (toJson r) := by
  have hwf : WfJson (toJson r) := wfJson_toJson r hdec
  have hascii : ∀ c ∈ (String.mk (printJson (toJson r))).data, c.toNat < 128 :=
    fun c hc => printJson_ascii (toJson r) hwf c hc
  have hall : (String.mk (printJson (toJson r))).data.all (fun c => c.toNat ≤ 255) = true := by
    rw [List.all_eq_true]
    intro c hc
    have := hascii c hc
    simp only [decide_eq_true_eq]
    omega
  rw [encode, unescape_encodeURIComponent ⟨printJson (toJson r)⟩ hascii, btoa, if_pos hall]
  simp only [Option.map_some', Option.some_bind]
  have hBascii : ∀ c ∈ (String.mk (btoaBytes
      ((String.mk (printJson (toJson r))).data.map Char.toNat))).data, c.toNat < 128 := by
    intro c hc
    refine btoaBytes_ascii _ ?_ c hc
    intro b hb
    simp only [List.mem_map] at hb
    obtain ⟨ch, hch, rfl⟩ := hb
    have := hascii ch hch
    omega
  rw [decodeURIComponent_encodeURIComponent _ hBascii]
  simp only [Option.some_bind]
  rw [decode]
  have hatob : atob (String.mk (btoaBytes
        ((String.mk (printJson (toJson r))).data.map Char.toNat)))
      = some (String.mk (printJson (toJson r))) := by
    have h := atob_btoa (String.mk (printJson (toJson r)))
      (fun c hc => by have := hascii c hc; omega)
    rw [btoa, if_pos hall] at h
    simpa using h
  rw [hatob]
  simp only [Option.some_bind]
  rw [decodeURIComponent_escape _ hascii]
  simp only [Option.some_bind]
  exact jsonParse_printJson (toJson r) hwf

theorem C7_roundtrip_amended_witness :
    ([Material.m1084, Material.m15N20] : List Material).length ≤ 5000
    ∧ ([Operation.fold 2] : List Operation).length ≤ 50
    ∧ (∀ op ∈ [Operation.fold 2], opDecimal op)
    ∧ (encode (toJson ⟨[Material.m1084, Material.m15N20], [Operation.fold 2]⟩)).bind
          (fun tok => (decodeURIComponent tok).bind decode)
        = some (toJson ⟨[Material.m1084, Material.m15N20], [Operation.fold 2]⟩) :=
  ⟨by decide, by decide, by decide,
    C7_roundtrip_amended ⟨[Material.m1084, Material.m15N20], [Operation.fold 2]⟩
      (by decide) (by decide) (by decide)⟩

end Damascus
